import Mathlib

/-!
Verification development for the chart-repository metadata core of the
helm repository: the index engine (pkg/repo/index.go) and the chart
repository registry/cache (the downloader package's ChartRepositories).

The Go code is shallowly embedded: structs become structures, methods
become functions, (*T, error) results become Except/Option, and the
mutable registry state is threaded explicitly.  Go maps are modelled as
association lists with unique keys; iteration order of a Go map is
unspecified, and every theorem below is insensitive to the order fixed
by the association list.

The external Masterminds semver/v3 library, the chart.Metadata
validator, and the URL utilities are dependencies whose sources are not
part of this repository; they are modelled from the specification.
Each such definition carries a doc comment starting with
"Modelled from the spec:".
-/

namespace HelmRepo

/-! ## Character-level helpers for the semantic-version grammar -/

def isDigitChar (c : Char) : Bool := '0' ≤ c && c ≤ '9'

def isAlphaChar (c : Char) : Bool := ('a' ≤ c && c ≤ 'z') || ('A' ≤ c && c ≤ 'Z')

/-- Character class of a prerelease / build identifier: [0-9A-Za-z-]. -/
def isIdentChar (c : Char) : Bool := isDigitChar c || isAlphaChar c || c == '-'

/-- Character class of a constraint version component: digits or the
wildcards x, X, *. -/
def isWildCompChar (c : Char) : Bool := isDigitChar c || c == 'x' || c == 'X' || c == '*'

/-- Whitespace, as in the library's constraint grammar. -/
def isSpaceChar (c : Char) : Bool := c == ' ' || c == '\t' || c == '\n' || c == '\r'

/-- Numeric value of a digit string (most significant first). -/
def digitsVal (l : List Char) : Nat := l.foldl (fun acc c => acc * 10 + (c.toNat - '0'.toNat)) 0

/-- Split off the maximal leading run of characters satisfying p. -/
def takeRun (p : Char → Bool) : List Char → List Char × List Char
  | [] => ([], [])
  | c :: cs =>
    if p c then
      let r := takeRun p cs
      (c :: r.1, r.2)
    else ([], c :: cs)

/-- Split a character list on a separator character. -/
def splitOnChar (sep : Char) : List Char → List (List Char)
  | [] => [[]]
  | c :: cs =>
    let r := splitOnChar sep cs
    if c = sep then [] :: r
    else
      match r with
      | [] => [[c]]
      | h :: t => (c :: h) :: t

/-! ## Semantic versions

Modelled from the spec: the index engine delegates version parsing and
comparison to an external semantic-version library (Masterminds
semver/v3).  A version is an optional leading "v", a major number,
optional ".minor" and ".patch" numbers, an optional "-prerelease" and an
optional "+build" part; numeric components must fit in an unsigned
64-bit integer, and numeric prerelease identifiers must not have leading
zeros.  Comparison is semantic-version precedence: numeric triple first,
then prerelease (a version without prerelease is greater; identifiers
are compared dot-part by dot-part, numerically when both parts are
numeric, byte-lexicographically otherwise, with numeric parts lower than
alphanumeric ones); build metadata is ignored. -/

structure SemVer where
  major : Nat
  minor : Nat
  patch : Nat
  pre : String
  build : String
deriving DecidableEq, Repr

/-- A dotted identifier sequence: nonempty parts over [0-9A-Za-z-]. -/
def validIdents (parts : List (List Char)) : Bool :=
  parts.all (fun p => !p.isEmpty && p.all isIdentChar)

/-- Modelled from the spec: the library's prerelease validation — a
numeric identifier must not have a leading zero. -/
def validPrereleaseParts (parts : List (List Char)) : Bool :=
  validIdents parts &&
    parts.all (fun p => !(p.all isDigitChar) || p.length ≤ 1 || p.head? ≠ some '0')

/-- Parse the optional ".number" components after the major number.
Returns (minor, patch, rest).  A bare "." with no digits fails. -/
def parseDotNum (l : List Char) : Option (Nat × List Char) :=
  match l with
  | '.' :: r =>
    let d := takeRun isDigitChar r
    if d.1.isEmpty then none
    else if digitsVal d.1 < 2 ^ 64 then some (digitsVal d.1, d.2) else none
  | _ => some (0, l)

/-- Consume a dotted identifier sequence ident(.ident)*: take the
maximal run of identifier-or-dot characters and require every
dot-separated part to be a nonempty identifier (this matches the
regular expression: a partial match would always leave an unconsumable
dot or empty part behind and fail as a whole).  Returns the consumed
text and the unconsumed rest. -/
def parseDottedIdents (l : List Char) : Option (List Char × List Char) :=
  let run := takeRun (fun c => isIdentChar c || c = '.') l
  if validIdents (splitOnChar '.' run.1) then some (run.1, run.2) else none

/-- Modelled from the spec: version parsing of the external semver
library (lenient grammar: optional "v", optional minor/patch).  Returns
none exactly when the string is not accepted. -/
def newVersion (s : String) : Option SemVer := do
  let l := s.data
  let l := match l with
    | 'v' :: r => r
    | _ => l
  let (majD, r1) := takeRun isDigitChar l
  if majD.isEmpty then none
  else if 2 ^ 64 ≤ digitsVal majD then none
  else do
  let (minor, r2) ← parseDotNum r1
  let (patch, r3) ← parseDotNum r2
  let (preS, r4) ←
    match r3 with
    | '-' :: r => parseDottedIdents r
    | _ => some (([] : List Char), r3)
  let (buildS, r5) ←
    match r4 with
    | '+' :: r => parseDottedIdents r
    | _ => some (([] : List Char), r4)
  if !r5.isEmpty then none
  else
    let preParts := if preS.isEmpty then [] else splitOnChar '.' preS
    let buildParts := if buildS.isEmpty then [] else splitOnChar '.' buildS
    if preS.isEmpty || validPrereleaseParts preParts then
      if buildS.isEmpty || validIdents buildParts then
        some ⟨digitsVal majD, minor, patch, String.mk preS, String.mk buildS⟩
      else none
    else none

/-! ## Semantic-version precedence -/

/-- Lexicographic comparison of lists by an element comparator; a
missing element is lower than any present one. -/
def lexListCmp {α : Type} (cmp : α → α → Ordering) : List α → List α → Ordering
  | [], [] => .eq
  | [], _ :: _ => .lt
  | _ :: _, [] => .gt
  | a :: as, b :: bs => (cmp a b).then (lexListCmp cmp as bs)

/-- Codepoint comparison of characters (identifier characters are
ASCII, so codepoint order and byte order agree). -/
def charCmp (a b : Char) : Ordering := compare a.toNat b.toNat

/-- Byte-lexicographic comparison of identifier text. -/
def strLexCmp (a b : List Char) : Ordering := lexListCmp charCmp a b

/-- Whether a prerelease identifier is numeric for comparison purposes:
all digits and within the unsigned 64-bit range (the library falls back
to string comparison when the numeric parse fails). -/
def identIsNum (l : List Char) : Bool :=
  !l.isEmpty && l.all isDigitChar && decide (digitsVal l < 2 ^ 64)

/-- Compare two prerelease identifiers: numerically when both are
numeric, byte-lexicographically when both are alphanumeric; a numeric
identifier is lower than an alphanumeric one. -/
def identCmp (a b : List Char) : Ordering :=
  if identIsNum a then
    if identIsNum b then compare (digitsVal a) (digitsVal b) else .lt
  else if identIsNum b then .gt
  else strLexCmp a b

/-- Compare dotted identifier sequences part by part; a missing part is
lower than any present part. -/
def identListCmp (a b : List (List Char)) : Ordering := lexListCmp identCmp a b

/-- Compare prerelease strings: an empty prerelease (a release) is
greater than any nonempty one. -/
def preCmp (p q : String) : Ordering :=
  if p = "" then (if q = "" then .eq else .gt)
  else if q = "" then .lt
  else identListCmp (splitOnChar '.' p.data) (splitOnChar '.' q.data)

/-- Semantic-version precedence: numeric triple, then prerelease; build
metadata is ignored. -/
def svCmp (a b : SemVer) : Ordering :=
  (compare a.major b.major).then
    ((compare a.minor b.minor).then
      ((compare a.patch b.patch).then (preCmp a.pre b.pre)))

/-- The library's LessThan. -/
def svLt (a b : SemVer) : Bool := svCmp a b == .lt

/-! ## Version constraints

Modelled from the spec: the version-constraint expression language of
the external semver library — comparison operators (=, !=, <, >, <=,
>=), tilde and caret ranges, wildcard components (x, X, *), groups
separated by commas (conjunction) and by || (disjunction).  An entirely
empty constraint matches anything.  A version carrying a prerelease
satisfies a constraint only if the constraint itself mentions a
prerelease (this gate is applied by every operator).  Hyphen ranges
("a - b") are not modelled; no statement below involves them. -/

inductive CompOp
  | opEq | opNeq | opGt | opLt | opGe | opLe | opTilde | opCaret
deriving DecidableEq, Repr

/-- One parsed constraint: an operator and a version pattern whose
minor/patch components may be absent or wildcards. -/
structure SvConstraint where
  op : CompOp
  majorWild : Bool
  major : Nat
  minorGiven : Bool
  minorWild : Bool
  minor : Nat
  patchGiven : Bool
  patchWild : Bool
  patch : Nat
  pre : String
deriving DecidableEq, Repr

/-- The constraint produced for an empty constraint string: matches
any version (subject to the prerelease gate). -/
def matchAnyConstraint : SvConstraint :=
  ⟨.opEq, true, 0, false, false, 0, false, false, 0, ""⟩

/-- Parse the operator prefix of a single constraint. -/
def parseOp (l : List Char) : CompOp × List Char :=
  match l with
  | '>' :: '=' :: r => (.opGe, r)
  | '=' :: '>' :: r => (.opGe, r)
  | '<' :: '=' :: r => (.opLe, r)
  | '=' :: '<' :: r => (.opLe, r)
  | '!' :: '=' :: r => (.opNeq, r)
  | '~' :: '>' :: r => (.opTilde, r)
  | '~' :: r => (.opTilde, r)
  | '^' :: r => (.opCaret, r)
  | '>' :: r => (.opGt, r)
  | '<' :: r => (.opLt, r)
  | '=' :: r => (.opEq, r)
  | _ => (.opEq, l)

/-- Parse one version component of a constraint pattern: a nonempty run
over digits/x/X/*.  A component containing a wildcard character counts
as a wildcard; otherwise it must be a numeric component in unsigned
64-bit range. -/
def parseWildComp (l : List Char) : Option ((Bool × Nat) × List Char) :=
  let run := takeRun isWildCompChar l
  if run.1.isEmpty then none
  else if run.1.any (fun c => c == 'x' || c == 'X' || c == '*') then some ((true, 0), run.2)
  else if digitsVal run.1 < 2 ^ 64 then some ((false, digitsVal run.1), run.2)
  else none

/-- Parse an optional "." component of a constraint pattern. -/
def parseDotWildComp (l : List Char) : Option ((Bool × Bool × Nat) × List Char) :=
  match l with
  | '.' :: r =>
    match parseWildComp r with
    | none => none
    | some (c, rest) => some ((true, c.1, c.2), rest)
  | _ => some ((false, false, 0), l)

/-- Parse a single comma-separated constraint.  An empty (all-space)
constraint is an error, but a fully empty string is the match-anything
constraint, as in the library. -/
def parseConstraint (l : List Char) : Option SvConstraint :=
  if l.isEmpty then some matchAnyConstraint
  else do
    let l1 := (takeRun isSpaceChar l).2
    let (op, l2) := parseOp l1
    let l3 := (takeRun isSpaceChar l2).2
    let l4 := match l3 with
      | 'v' :: r => r
      | _ => l3
    let ((majW, majN), r1) ← parseWildComp l4
    let ((minG, minW, minN), r2) ← parseDotWildComp r1
    let ((patG, patW, patN), r3) ← parseDotWildComp r2
    let (preS, r4) ←
      match r3 with
      | '-' :: r => parseDottedIdents r
      | _ => some (([] : List Char), r3)
    let (_, r5) ←
      match r4 with
      | '+' :: r => parseDottedIdents r
      | _ => some (([] : List Char), r4)
    let r6 := (takeRun isSpaceChar r5).2
    if !r6.isEmpty then none
    else some ⟨op, majW, majN, minG, minW, minN, patG, patW, patN, String.mk preS⟩

/-- Split a character list on every occurrence of a two-character
separator. -/
def splitOnTwo (a b : Char) : List Char → List (List Char)
  | [] => [[]]
  | [c] => [[c]]
  | c :: d :: rest =>
    if c = a && d = b then [] :: splitOnTwo a b rest
    else
      match splitOnTwo a b (d :: rest) with
      | [] => [[c]]
      | h :: t => (c :: h) :: t

/-- Modelled from the spec: constraint parsing — split on "||" into
groups, split each group on "," and parse every part; any failing part
fails the whole parse. -/
def newConstraint (s : String) : Option (List (List SvConstraint)) :=
  (splitOnTwo '|' '|' s.data).mapM (fun grp => (splitOnChar ',' grp).mapM parseConstraint)

/-- The concrete version a constraint compares against (wildcards and
absent components read as zero). -/
def conVer (c : SvConstraint) : SemVer :=
  ⟨if c.majorWild then 0 else c.major,
   if c.minorGiven && !c.minorWild then c.minor else 0,
   if c.patchGiven && !c.patchWild then c.patch else 0,
   c.pre, ""⟩

/-- Equality against a pattern: component-wise, where a wildcard or an
absent trailing component matches anything; a fully concrete pattern is
semantic-version equality. -/
def svEqWild (c : SvConstraint) (v : SemVer) : Bool :=
  if c.majorWild then true
  else if v.major ≠ c.major then false
  else if !c.minorGiven || c.minorWild then true
  else if v.minor ≠ c.minor then false
  else if !c.patchGiven || c.patchWild then true
  else if v.patch ≠ c.patch then false
  else preCmp v.pre c.pre == .eq

/-- Modelled from the spec: satisfaction of one constraint.  Every
operator first applies the prerelease gate: a version with a prerelease
never satisfies a constraint without one. -/
def conCheck (c : SvConstraint) (v : SemVer) : Bool :=
  if v.pre ≠ "" && c.pre = "" then false
  else
    match c.op with
    | .opEq => svEqWild c v
    | .opNeq => !svEqWild c v
    | .opGt => svCmp v (conVer c) == .gt
    | .opLt => svCmp v (conVer c) == .lt
    | .opGe => svCmp v (conVer c) != .lt
    | .opLe => svCmp v (conVer c) != .gt
    | .opTilde =>
      svCmp v (conVer c) != .lt && v.major = (conVer c).major &&
        (!c.minorGiven || c.minorWild || v.minor = c.minor)
    | .opCaret =>
      svCmp v (conVer c) != .lt &&
        (if (conVer c).major > 0 then v.major = (conVer c).major
         else v.major = 0 &&
           (!c.minorGiven || c.minorWild || v.minor = (conVer c).minor))

/-- Satisfaction of a parsed constraint set: disjunction of groups,
conjunction within a group. -/
def constraintsCheck (cs : List (List SvConstraint)) (v : SemVer) : Bool :=
  cs.any (fun grp => grp.all (fun c => conCheck c v))

/-! ## Chart metadata

Modelled from the spec: chart metadata (pkg/chart) is consumed, not
owned, by the index engine.  Only the fields the index code reads are
modelled: name, version, apiVersion, and the dependency names/aliases
inspected by validation. -/

structure Metadata where
  name : String
  version : String
  apiVersion : String
  dependencyNames : List String
deriving DecidableEq, Repr

/-- The chart API version defaulted in by the index code. -/
def chartAPIVersionV1 : String := "v1"

inductive ValidationError
  | apiVersionRequired
  | nameRequired
  | versionRequired
  | duplicateDependency
deriving DecidableEq, Repr

def hasDuplicate : List String → Bool
  | [] => false
  | x :: xs => xs.contains x || hasDuplicate xs

/-- Modelled from the spec: chart-metadata validation — apiVersion,
name and version are required; dependency names/aliases must be
distinct. -/
def Metadata.Validate (md : Metadata) : Option ValidationError :=
  if md.apiVersion = "" then some .apiVersionRequired
  else if md.name = "" then some .nameRequired
  else if md.version = "" then some .versionRequired
  else if hasDuplicate md.dependencyNames then some .duplicateDependency
  else none

/-- ignoreSkippableChartValidationError: the fixed allow-list of
known-benign validation failures (duplicate dependency name/alias
complaints from third-party generators) is tolerated. -/
def ignoreSkippableChartValidationError : Option ValidationError → Option ValidationError
  | some .duplicateDependency => none
  | e => e

/-! ## The index data model (pkg/repo/index.go) -/

/-- ChartVersion represents a chart entry in the IndexFile.  The Go
struct embeds *chart.Metadata; entries inside a loaded resolution-ready
index have a metadata block (the loader substitutes an empty one), so
it is a plain field here.  The deprecated fields are inert; timestamps
are abstract. -/
structure ChartVersion where
  metadata : Metadata
  urls : List String
  created : Nat
  removed : Bool
  digest : String
  checksumDeprecated : String
  engineDeprecated : String
  tillerVersionDeprecated : String
  urlDeprecated : String
deriving DecidableEq, Repr

/-- Promoted field access cv.Name. -/
def ChartVersion.Name (cv : ChartVersion) : String := cv.metadata.name

/-- Promoted field access cv.Version. -/
def ChartVersion.Version (cv : ChartVersion) : String := cv.metadata.version

/-- Error cases of index lookups (Go returns distinct error values). -/
inductive GetError
  | invalidConstraint
  | noChartName
  | noChartVersion
  | noVersionFound
deriving DecidableEq, Repr

instance {ε α : Type} [DecidableEq ε] [DecidableEq α] : DecidableEq (Except ε α) := fun x y =>
  match x, y with
  | .error a, .error b =>
    if h : a = b then .isTrue (by rw [h]) else .isFalse (fun hc => by cases hc; exact h rfl)
  | .error _, .ok _ => .isFalse (fun hc => by cases hc)
  | .ok _, .error _ => .isFalse (fun hc => by cases hc)
  | .ok a, .ok b =>
    if h : a = b then .isTrue (by rw [h]) else .isFalse (fun hc => by cases hc; exact h rfl)

/-- The predicate of the constraint-scan loop: an entry satisfies the
constraint if its version string parses and the parsed version checks
out; an unparseable entry is skipped. -/
def constraintMatches (constraint : List (List SvConstraint)) (ver : ChartVersion) : Bool :=
  match newVersion ver.Version with
  | none => false
  | some test => constraintsCheck constraint test

def ChartVersions.getWith (c : List ChartVersion) (version : String)
    (constraint : List (List SvConstraint)) : Except GetError ChartVersion :=
  match (if version ≠ "" then c.find? (fun ver => ver.Version == version) else none) with
  | some ver => .ok ver
  | none =>
    match c.find? (constraintMatches constraint) with
    | some ver => .ok ver
    | none => .error .noVersionFound

/-- ChartVersions.Get: parse the version constraint (empty means "*");
then return the first entry whose raw version string equals the
requested version exactly; otherwise the first entry whose parseable
version satisfies the constraint (unparseable entries are skipped);
otherwise a not-found error.  In Go the error of NewConstraint("*") is
discarded; that parse always succeeds, so the invalidConstraint branch
is unreachable for an empty version. -/
def ChartVersions.Get (c : List ChartVersion) (_name version : String) :
    Except GetError ChartVersion :=
  match (if version = "" then newConstraint "*" else newConstraint version) with
  | none => .error .invalidConstraint
  | some constraint => ChartVersions.getWith c version constraint

/-- ChartVersions.Less: a failed semantic-version parse pushes the
entry to the back. -/
def cvLess (x y : ChartVersion) : Bool :=
  match newVersion x.Version with
  | none => true
  | some i =>
    match newVersion y.Version with
    | none => false
    | some j => svLt i j

/-- One step of the Go standard library's insertion sort under
sort.Reverse: the new element x moves left from the end of the
already-processed prefix, swapping past y while Less(y, x) holds.  The
prefix is given reversed (closest neighbour first). -/
def goInsertRev (x : ChartVersion) : List ChartVersion → List ChartVersion
  | [] => [x]
  | y :: ys => if cvLess y x then y :: goInsertRev x ys else x :: y :: ys

/-- Inserting x into the processed prefix acc (in normal order). -/
def goInsert (acc : List ChartVersion) (x : ChartVersion) : List ChartVersion :=
  (goInsertRev x acc.reverse).reverse

/-- sort.Sort(sort.Reverse(versions)) as run by SortEntries.  Go's
sort.Sort runs plain insertion sort for slices of length at most 12
(the pdqsort small-array cutoff); this definition is that insertion
sort, processing elements left to right, and is a faithful model of the
Go call for lists of length at most 12.  For longer slices Go switches
to an unstable pattern-defeating quicksort which is not modelled; no
statement below relies on this definition for longer lists. -/
def sortDescending (l : List ChartVersion) : List ChartVersion :=
  l.foldl goInsert []

/-! ### Association-list maps (Go map values) -/

def mapLookup {α : Type} (m : List (String × α)) (k : String) : Option α :=
  (m.find? (fun p => p.1 == k)).map (fun p => p.2)

/-- Go map assignment m[k] = v: replace the value of an existing key,
otherwise add the key. -/
def mapSet {α : Type} (m : List (String × α)) (k : String) (v : α) : List (String × α) :=
  match m with
  | [] => [(k, v)]
  | (k', v') :: rest => if k' = k then (k, v) :: rest else (k', v') :: mapSet rest k v

/-- IndexFile represents the index file in a chart repository.
serverInfo is transient and uninterpreted, so it is not carried. -/
structure IndexFile where
  apiVersion : String
  generated : Nat
  entries : List (String × List ChartVersion)
  publicKeys : List String
  annotations : List (String × String)
deriving DecidableEq, Repr

def IndexFile.GetVersions (i : IndexFile) (name : String) :
    Except GetError (List ChartVersion) :=
  match mapLookup i.entries name with
  | none => .error .noChartName
  | some versions =>
    if versions.length = 0 then .error .noChartVersion else .ok versions

/-- IndexFile.Get: look the chart name up, then resolve the version. -/
def IndexFile.Get (i : IndexFile) (name version : String) : Except GetError ChartVersion :=
  match i.GetVersions name with
  | .error e => .error e
  | .ok vs => ChartVersions.Get vs name version

/-- IndexFile.SortEntries sorts every chart's version list descending. -/
def IndexFile.SortEntries (i : IndexFile) : IndexFile :=
  { i with entries := i.entries.map (fun p => (p.1, sortDescending p.2)) }

/-- Get on a bare entries map (definitionally what IndexFile.Get does
with the map of an index). -/
def entriesGet (es : List (String × List ChartVersion)) (name version : String) :
    Except GetError ChartVersion :=
  match mapLookup es name with
  | none => .error .noChartName
  | some versions =>
    if versions.length = 0 then .error .noChartVersion
    else ChartVersions.Get versions name version

/-- err == nil on an Except result. -/
def exceptOk {ε α : Type} : Except ε α → Bool
  | .ok _ => true
  | .error _ => false

/-- Has on a bare entries map: true iff Get succeeds. -/
def entriesHas (es : List (String × List ChartVersion)) (name version : String) : Bool :=
  exceptOk (entriesGet es name version)

/-- IndexFile.Has returns true if the index has an entry for a chart
with the given name and version (via Get). -/
def IndexFile.Has (i : IndexFile) (name version : String) : Bool :=
  entriesHas i.entries name version

/-- Go's i.Entries[cv.Name] = append(i.Entries[cv.Name], cv). -/
def entriesAppend (es : List (String × List ChartVersion)) (k : String) (cv : ChartVersion) :
    List (String × List ChartVersion) :=
  match mapLookup es k with
  | none => mapSet es k [cv]
  | some vs => mapSet es k (vs ++ [cv])

/-- One appending step of Merge: append the source entry to the
destination's list for its chart name unless an entry with that exact
name and version is already found (Has). -/
def mergeStep (acc : List (String × List ChartVersion)) (cv : ChartVersion) :
    List (String × List ChartVersion) :=
  if entriesHas acc cv.Name cv.Version then acc else entriesAppend acc cv.Name cv

/-- IndexFile.Merge: every chart-version entry of the source f that is
not already present in the destination (Has on exact name+version) is
appended to the destination's list for that chart name.  The iteration
order of the Go source map is unspecified; the association-list order
stands in for it, and the statements proved below are insensitive to
that order. -/
def IndexFile.Merge (i f : IndexFile) : IndexFile :=
  { i with
    entries := f.entries.foldl (fun acc p => p.2.foldl mergeStep acc) i.entries }

/-! ## loadIndex (parsing an index document)

Byte-level decoding (jsonOrYamlUnmarshal) is an external concern; the
model starts from the decoded document.  A decoded entry list may
contain null entries (Go: nil *ChartVersion) and entries without a
metadata block, hence the Option-typed representation below. -/

/-- A decoded chart-version entry: the metadata block may be absent. -/
structure LoadedChartVersion where
  metadata : Option Metadata
  urls : List String
  created : Nat
  removed : Bool
  digest : String
  checksumDeprecated : String
  engineDeprecated : String
  tillerVersionDeprecated : String
  urlDeprecated : String
deriving DecidableEq, Repr

/-- A decoded index document.  A null list entry is none. -/
structure LoadedIndexFile where
  apiVersion : String
  generated : Nat
  entries : List (String × List (Option LoadedChartVersion))
  publicKeys : List String
  annotations : List (String × String)
deriving DecidableEq, Repr

/-- The in-place fixups loadIndex applies to a non-null entry before
validating it: substitute an empty metadata block when it is missing,
and default an empty apiVersion to the current chart API version. -/
def loadFixup (cv : LoadedChartVersion) : LoadedChartVersion :=
  let md := match cv.metadata with
    | none => ({ name := "", version := "", apiVersion := "", dependencyNames := [] } : Metadata)
    | some md => md
  let md := if md.apiVersion = "" then { md with apiVersion := chartAPIVersionV1 } else md
  { cv with metadata := some md }

/-- Whether the validation step drops the (fixed-up) entry: the
validation error is not on the tolerated allow-list. -/
def loadDrops (cv : LoadedChartVersion) : Bool :=
  match cv.metadata with
  | none => false
  | some md => (ignoreSkippableChartValidationError md.Validate).isSome

/-- One chart's cleanup loop, with Go slice semantics made explicit.
The loop iterates idx from len-1 down to 0 over the local slice cvs,
while the map keeps the original slice header: both share the backing
array B, and the local slice is always the first m elements of B.
Removing index idx shifts B[idx+1 .. m-1] one slot left (so B[m-1]
keeps its old value) and shortens only the local length m; the map
still sees all of B.  A nil entry is logged and skipped without being
removed.  The function returns the final backing array — exactly what
the returned index's map exposes. -/
def cleanupGo (B : List (Option LoadedChartVersion)) (m : Nat) :
    Nat → List (Option LoadedChartVersion)
  | 0 => B
  | idx + 1 =>
    match B.get? idx with
    | none => cleanupGo B m idx
    | some none => cleanupGo B m idx
    | some (some cv) =>
      let cv' := loadFixup cv
      let B' := B.set idx (some cv')
      if loadDrops cv' then
        let B'' := B'.take idx ++ (B'.drop (idx + 1)).take (m - idx - 1) ++ B'.drop (m - 1)
        cleanupGo B'' (m - 1) idx
      else cleanupGo B' m idx

/-- Cleanup of one chart's decoded entry list. -/
def cleanupList (l : List (Option LoadedChartVersion)) : List (Option LoadedChartVersion) :=
  cleanupGo l l.length l.length

/-- Version string read through the embedded pointers, as the sort's
comparator does: none models a nil-pointer dereference (panic). -/
def lcvVersion : Option LoadedChartVersion → Option String
  | none => none
  | some cv =>
    match cv.metadata with
    | none => none
    | some md => some md.version

/-- The comparator Less(a, b) evaluated on possibly-nil entries: none
models a Go panic (nil dereference).  Go evaluates the first argument's
version first and short-circuits, so a nil second argument is only
dereferenced when the first parses. -/
def cvLessE (x y : Option LoadedChartVersion) : Option Bool :=
  match lcvVersion x with
  | none => none
  | some vx =>
    match newVersion vx with
    | none => some true
    | some i =>
      match lcvVersion y with
      | none => none
      | some vy =>
        match newVersion vy with
        | none => some false
        | some j => some (svLt i j)

/-- goInsertRev in the panic monad. -/
def goInsertRevE (x : Option LoadedChartVersion) :
    List (Option LoadedChartVersion) → Option (List (Option LoadedChartVersion))
  | [] => some [x]
  | y :: ys =>
    match cvLessE y x with
    | none => none
    | some true =>
      match goInsertRevE x ys with
      | none => none
      | some r => some (y :: r)
    | some false => some (x :: y :: ys)

/-- The insertion sort of SortEntries run on a loaded (possibly
nil-containing) list; none models the run panicking.  Faithful to Go
for lists of length at most 12, as for sortDescending. -/
def sortLoaded (l : List (Option LoadedChartVersion)) :
    Option (List (Option LoadedChartVersion)) :=
  l.foldl
    (fun acc x =>
      match acc with
      | none => none
      | some a =>
        match goInsertRevE x a.reverse with
        | none => none
        | some r => some r.reverse)
    (some [])

/-- SortEntries over all charts of a loaded index. -/
def sortLoadedEntries (es : List (String × List (Option LoadedChartVersion))) :
    Option (List (String × List (Option LoadedChartVersion))) :=
  es.mapM (fun p => (sortLoaded p.2).map (fun l => (p.1, l)))

inductive LoadError
  | noAPIVersion
deriving DecidableEq, Repr

/-- loadIndex after decoding: clean every chart's entry list up (with
the slice semantics above), sort all entries, and only then check the
top-level API version, returning the processed index together with the
error when the tag is missing.  The outer none models the process
panicking inside the sort (a nil entry left in place by the cleanup
being dereferenced by the comparator). -/
def loadIndexProcess (d : LoadedIndexFile) :
    Option (LoadedIndexFile × Option LoadError) :=
  match sortLoadedEntries (d.entries.map (fun p => (p.1, cleanupList p.2))) with
  | none => none
  | some sorted =>
    if d.apiVersion = "" then some ({ d with entries := sorted }, some .noAPIVersion)
    else some ({ d with entries := sorted }, none)

/-! ## The chart repository registry and cache (downloader package)

The registry's two pieces of state (the repository entry table and the
index cache) are a record threaded through the operations; locks
serialize access in Go and have no observable effect on a single
caller's results, so they are not modelled.  Mutating operations return the
updated state. -/

/-- A repository entry (repo.Entry): only the fields this code reads. -/
structure RepoEntry where
  name : String
  url : String
deriving DecidableEq, Repr

/-- ChartRepositories: the repos entry table and the lazily-populated
indices cache. -/
structure ChartRepositories where
  repos : List (String × RepoEntry)
  indices : List (String × IndexFile)
deriving DecidableEq, Repr

/-- Modelled from the spec: normalization-aware URL equality
(urlutil.Equal) — trailing slashes are insignificant.  Only
reflexivity and the hypothesis-side matching of the statements below
depend on this definition. -/
def urlNorm (s : String) : List Char := s.data.reverse.dropWhile (fun c => c = '/') |>.reverse

def urlEqual (a b : String) : Bool := urlNorm a == urlNorm b

/-- Modelled from the spec: the content-derived key of a URL used to
mint a synthetic repository name.  The external function is a
deterministic content hash that never fails on the inputs used here;
determinism is the only property relied upon, so the content itself
stands in for its digest. -/
def keyOf (url : String) : Option String := some url

/-- Modelled from the spec: the fixed prefix of synthetic repository
names. -/
def managerKeyPrefix : String := "helm-manager-"

/-- getInfo: the entry for an exact name; never an error. -/
def ChartRepositories.getInfo (c : ChartRepositories) (name : String) : Option RepoEntry :=
  if name = "" then none else mapLookup c.repos name

/-- getInfoByF: the first entry satisfying the predicate (Go iterates
the map in unspecified order; the list order stands in for it). -/
def ChartRepositories.getInfoByF (c : ChartRepositories) (f : RepoEntry → Bool) :
    Option RepoEntry :=
  (c.repos.find? (fun p => f p.2)).map (fun p => p.2)

/-- getInfoByURL: the entry whose URL compares equal to the given URL;
if none matches, mint a synthetic name from the URL's key, register an
entry for it and return it. -/
def ChartRepositories.getInfoByURL (c : ChartRepositories) (url : String) :
    Option RepoEntry × ChartRepositories :=
  match c.getInfoByF (fun e => urlEqual e.url url) with
  | some e => (some e, c)
  | none =>
    match keyOf url with
    | none => (none, c)
    | some k =>
      let generatedName := managerKeyPrefix ++ k
      let generatedRepo : RepoEntry := ⟨generatedName, url⟩
      (some generatedRepo, { c with repos := mapSet c.repos generatedName generatedRepo })

/-- Byte-prefix test (strings.HasPrefix); the prefixes used are ASCII,
so the character-list prefix is the byte prefix. -/
def strHasPrefix (pre s : String) : Bool := pre.data.isPrefixOf s.data

/-- Modelled from the spec: the OCI-reference predicate
(registry.IsOCI) — an "oci://" scheme prefix. -/
def isOCIRef (s : String) : Bool := strHasPrefix "oci://" s

/-- Modelled from the spec: url.Parse succeeding with an absolute URL —
the string starts with a valid scheme (a letter followed by letters,
digits, '+', '-' or '.') terminated by ':'. -/
def isAbsURL (s : String) : Bool :=
  match s.data with
  | [] => false
  | c :: rest =>
    isAlphaChar c &&
      (sevScheme rest)
where
  sevScheme : List Char → Bool
    | [] => false
    | ':' :: _ => true
    | c :: rest =>
      (isAlphaChar c || isDigitChar c || c == '+' || c == '-' || c == '.') && sevScheme rest

def trimPrefixStr (pre s : String) : String :=
  if strHasPrefix pre s then String.mk (s.data.drop pre.data.length) else s

/-- CanonicalizeRepoName: blank, local-file and OCI references never
resolve; then an alias-marker-stripped exact name match; then, when the
reference parses as an absolute URL, resolution by URL (which may
register a synthetic entry); otherwise no canonical name. -/
def ChartRepositories.CanonicalizeRepoName (c : ChartRepositories) (name : String) :
    String × ChartRepositories :=
  if name = "" || strHasPrefix "file://" name || isOCIRef name then ("", c)
  else if (c.getInfo (trimPrefixStr "@" name)).isSome then (trimPrefixStr "@" name, c)
  else if (c.getInfo (trimPrefixStr "alias:" name)).isSome then (trimPrefixStr "alias:" name, c)
  else if isAbsURL name then
    match c.getInfoByURL name with
    | (some e, c') => (e.name, c')
    | (none, c') => ("", c')
  else ("", c)

/-- Index of the last '/' (strings.LastIndex; character positions — the
inputs of interest are ASCII, where byte and character indices agree,
and the split prefix is the same string either way). -/
def lastSlashIdx (ref : String) : Option Nat :=
  let l := ref.data
  (l.reverse.findIdx? (fun c => c = '/')).map (fun j => l.length - 1 - j)

/-- GetForRef: split on the last path separator and canonicalize the
prefix; no separator, or a separator at position 0, does not resolve. -/
def ChartRepositories.GetForRef (c : ChartRepositories) (ref : String) :
    String × ChartRepositories :=
  match lastSlashIdx ref with
  | some i => if 0 < i then c.CanonicalizeRepoName (String.mk (ref.data.take i)) else ("", c)
  | none => ("", c)

/-- GetIndex: cached index if present; (none, no error) for a blank or
unknown name; otherwise load the known repository's cached index file
(the filesystem read and parse is the external load argument, keyed by
the entry's name as the on-disk cache-path convention is) and cache it.
An error is surfaced only when that load fails. -/
def ChartRepositories.GetIndex (c : ChartRepositories)
    (load : String → Except String IndexFile) (name : String) :
    Except String (Option IndexFile) × ChartRepositories :=
  if name = "" then (.ok none, c)
  else
    match mapLookup c.indices name with
    | some index => (.ok (some index), c)
    | none =>
      match c.getInfo name with
      | none => (.ok none, c)
      | some repoEntry =>
        match load repoEntry.name with
        | .error e => (.error e, c)
        | .ok index => (.ok (some index), { c with indices := mapSet c.indices name index })

/-! ## Definitions used by the statements below -/

/-- Overwrite only the Removed tombstone flag of an entry. -/
def setRemoved (b : Bool) (cv : ChartVersion) : ChartVersion := { cv with removed := b }

/-- A chart-version entry with the given name and version and defaults
elsewhere (used for concrete instances). -/
def mkCV (n v : String) : ChartVersion :=
  ⟨⟨n, v, "v1", []⟩, [], 0, false, "", "", "", "", ""⟩

/-- Whether an entry's version string parses as a semantic version. -/
def cvParses (cv : ChartVersion) : Bool := (newVersion cv.Version).isSome

/-- The non-increasing relation of the sorted order: among parseable
entries, the left version is not less than the right one; an
unparseable entry never precedes a parseable one. -/
def sortedGE (a b : ChartVersion) : Prop :=
  match newVersion a.Version, newVersion b.Version with
  | some va, some vb => svLt va vb = false
  | none, some _ => False
  | _, none => True

instance (a b : ChartVersion) : Decidable (sortedGE a b) := by
  unfold sortedGE
  exact match newVersion a.Version, newVersion b.Version with
    | some _, some _ => inferInstanceAs (Decidable (_ = false))
    | none, some _ => inferInstanceAs (Decidable False)
    | some _, none => inferInstanceAs (Decidable True)
    | none, none => inferInstanceAs (Decidable True)

/-- Membership of the equivalence class of the semantic version w
(versions equal to w under precedence, which ignores build metadata). -/
def eqVer (w : SemVer) (cv : ChartVersion) : Bool :=
  match newVersion cv.Version with
  | some v => svCmp v w == .eq
  | none => false

/-- A concrete registry state: one repository named "stable". -/
def wRepoState : ChartRepositories :=
  ⟨[("stable", ⟨"stable", "https://charts.example.com/stable"⟩)], []⟩

/-- A concrete index used in witnesses. -/
def wIndex : IndexFile :=
  ⟨"v1", 0, [("app", [mkCV "app" "1.0.0", mkCV "app" "2.0.0"])], [], []⟩

/-- The synthetic entry getInfoByURL mints for an unmatched URL. -/
def syntheticEntry (url : String) : RepoEntry := ⟨managerKeyPrefix ++ url, url⟩

/-- The state after registering the synthetic entry for url. -/
def registerSynthetic (c : ChartRepositories) (url : String) : ChartRepositories :=
  { c with repos := mapSet c.repos (managerKeyPrefix ++ url) (syntheticEntry url) }

/-- An index whose single entry's version string parses neither as a
semantic version nor as a version constraint. -/
def cBadIndex : IndexFile := ⟨"v1", 0, [("c", [mkCV "c" "bogus??"])], [], []⟩

/-- A second concrete index used in witnesses. -/
def wIndexB : IndexFile :=
  ⟨"v1", 0, [("lib", [mkCV "lib" "0.1.0"]), ("app", [mkCV "app" "3.0.0"])], [], []⟩

/-- A decoded (loaded) entry with the given name, version and chart
API version. -/
def mkLCV (n v a : String) : Option LoadedChartVersion :=
  some ⟨some ⟨n, v, a, []⟩, [], 0, false, "", "", "", "", ""⟩

/-- A decoded index document with one null entry and one entry that
fails chart-metadata validation (missing name and version), as in the
claim-C4 scenario; its top-level apiVersion is present. -/
def c4Doc : LoadedIndexFile :=
  ⟨"v1", 0, [("a", [none]), ("b", [some ⟨some ⟨"", "", "", []⟩, [], 0, false, "", "", "", "", ""⟩])],
   [], []⟩

/-- A decoded index document with one valid entry and no top-level
apiVersion. -/
def c5Doc : LoadedIndexFile :=
  ⟨"", 0, [("c", [some ⟨some ⟨"x", "1.0.0", "", []⟩, [], 0, false, "", "", "", "", ""⟩])], [], []⟩

/-- What loadIndex returns for c5Doc: the cleaned and sorted index
together with the missing-API-version error. -/
def c5Out : LoadedIndexFile × Option LoadError :=
  (⟨"", 0, [("c", [mkLCV "x" "1.0.0" "v1"])], [], []⟩, some .noAPIVersion)

/-- The sort in the reversed world: the reversed accumulator is
threaded directly through goInsertRev (sortDescending is its
reverse). -/
def revSortFold (l : List ChartVersion) : List ChartVersion :=
  l.foldl (fun r x => goInsertRev x r) []

/-- A concrete version list exercising the sort: parseable versions
out of order, a duplicate version with distinct names, and two
unparseable entries. -/
def c3List : List ChartVersion :=
  [mkCV "app" "1.0.0", mkCV "a2" "1.0.0", mkCV "app" "not-semver-A",
   mkCV "app" "2.0.0", mkCV "app" "not-semver-B"]

/-- A concrete index holding c3List under the chart name "app". -/
def c3Index : IndexFile :=
  ⟨"v1", 0, [("app", c3List)], [], []⟩

/-! ## General lemmas -/

theorem setRemoved_Version (b : Bool) (cv : ChartVersion) :
    (setRemoved b cv).Version = cv.Version := rfl

/-- find? commutes with mapping a function that preserves the
predicate. -/
theorem find?_map_pred {α : Type} (f : α → α) (p : α → Bool)
    (hf : ∀ x, p (f x) = p x) (l : List α) :
    (l.map f).find? p = (l.find? p).map f := by
  induction l with
  | nil => rfl
  | cons a t ih =>
    simp only [List.map_cons, List.find?_cons, hf]
    cases p a <;> simp [ih]

/-! ## Claim C10 -/

/-- Claim C10: version resolution never consults the Removed tombstone
flag — resolving against a list whose entries have their Removed flag
overwritten (to either value) returns exactly the corresponding
overwritten entry, for every chart name and version constraint. -/
theorem removed_flag_never_consulted (l : List ChartVersion) (name version : String)
    (b : Bool) :
    ChartVersions.Get (l.map (setRemoved b)) name version
      = (ChartVersions.Get l name version).map (setRemoved b) := by
  cases h : (if version = "" then newConstraint "*" else newConstraint version) with
  | none => simp [ChartVersions.Get, h, Except.map]
  | some constraint =>
    simp only [ChartVersions.Get, ChartVersions.getWith, h]
    have h1 : (l.map (setRemoved b)).find? (fun ver => ver.Version == version)
        = (l.find? (fun ver => ver.Version == version)).map (setRemoved b) :=
      find?_map_pred (setRemoved b) (fun ver => ver.Version == version) (fun _ => rfl) l
    have h2 : (l.map (setRemoved b)).find? (constraintMatches constraint)
        = (l.find? (constraintMatches constraint)).map (setRemoved b) :=
      find?_map_pred (setRemoved b) (constraintMatches constraint) (fun _ => rfl) l
    rw [h1, h2]
    by_cases hv : version = ""
    · simp only [hv, ne_eq, not_true_eq_false, if_false, Bool.false_eq_true]
      cases l.find? (constraintMatches constraint) <;> rfl
    · simp only [ne_eq, hv, not_false_eq_true, if_true]
      cases hfind : l.find? (fun ver => ver.Version == version) with
      | some v => simp [hfind, Except.map]
      | none =>
        simp only [hfind, Option.map_none]
        cases l.find? (constraintMatches constraint) <;> rfl

/-! ## Claim C9 -/

/-- Claim C9: canonicalizing a combined chart reference splits on the
last path separator '/' and canonicalizes the prefix before it; a
reference containing no separator, or whose last separator is the first
character, resolves to the empty canonical name. -/
theorem getForRef_splits_on_last_separator (c : ChartRepositories) (ref : String) :
    ((∀ ch ∈ ref.data, ch ≠ '/') → c.GetForRef ref = ("", c)) ∧
    (lastSlashIdx ref = some 0 → c.GetForRef ref = ("", c)) ∧
    (∀ i, lastSlashIdx ref = some i → 0 < i →
      c.GetForRef ref = c.CanonicalizeRepoName (String.mk (ref.data.take i))) := by
  refine ⟨?_, ?_, ?_⟩
  · intro hno
    have hidx : lastSlashIdx ref = none := by
      unfold lastSlashIdx
      have hfind : ref.data.reverse.findIdx? (fun ch => ch = '/') = none := by
        rw [List.findIdx?_eq_none_iff]
        intro x hx
        simp only [List.mem_reverse] at hx
        simp [hno x hx]
      simp [hfind]
    unfold ChartRepositories.GetForRef
    rw [hidx]
  · intro hidx
    unfold ChartRepositories.GetForRef
    rw [hidx]
    simp
  · intro i hidx hpos
    unfold ChartRepositories.GetForRef
    rw [hidx]
    simp [hpos]

/-- Witness for C9 at concrete references against a registry with the
single repository "stable". -/
theorem getForRef_splits_witness :
    wRepoState.GetForRef "mychart" = ("", wRepoState) ∧
    wRepoState.GetForRef "/mychart" = ("", wRepoState) ∧
    wRepoState.GetForRef "stable/mychart"
      = wRepoState.CanonicalizeRepoName (String.mk ("stable/mychart".data.take 6)) ∧
    wRepoState.CanonicalizeRepoName "stable" = ("stable", wRepoState) :=
  ⟨(getForRef_splits_on_last_separator wRepoState "mychart").1 (by decide),
   (getForRef_splits_on_last_separator wRepoState "/mychart").2.1 (by decide),
   (getForRef_splits_on_last_separator wRepoState "stable/mychart").2.2 6 (by decide)
     (by decide),
   by decide⟩

/-! ## Claim C8 -/

/-- Claim C8: GetIndex returns (nil, nil) for a blank name and for a
name with no registered entry (given that no index is cached under the
name — an invariant of every reachable registry state, since the cache
is only ever filled for names that were registered at load time and
entries are never removed); an error is surfaced only when a known
repository's cached index file fails to load or parse. -/
theorem getIndex_soft_fail (c : ChartRepositories)
    (load : String → Except String IndexFile) (name : String) :
    (name = "" → c.GetIndex load name = (.ok none, c)) ∧
    (mapLookup c.indices name = none → mapLookup c.repos name = none →
      c.GetIndex load name = (.ok none, c)) ∧
    (∀ e, (c.GetIndex load name).1 = .error e →
      name ≠ "" ∧ mapLookup c.indices name = none ∧
        ∃ ent, c.getInfo name = some ent ∧ load ent.name = .error e) := by
  unfold ChartRepositories.GetIndex
  refine ⟨?_, ?_, ?_⟩
  · intro h
    simp [h]
  · intro hidx hrepo
    by_cases h : name = ""
    · simp [h]
    · simp only [h, if_false, hidx]
      unfold ChartRepositories.getInfo
      simp [h, hrepo]
  · intro e he
    by_cases h : name = ""
    · simp [h] at he
    · simp only [h, if_false] at he
      cases hidx : mapLookup c.indices name with
      | some idx => rw [hidx] at he; simp at he
      | none =>
        rw [hidx] at he
        cases hinfo : c.getInfo name with
        | none => rw [hinfo] at he; simp at he
        | some ent =>
          rw [hinfo] at he
          dsimp only at he
          cases hload : load ent.name with
          | error e' =>
            rw [hload] at he
            simp only at he
            refine ⟨h, rfl, ent, rfl, ?_⟩
            rw [hload]
            simp only [Except.error.injEq] at he
            rw [he]
          | ok idx =>
            rw [hload] at he
            simp at he

/-- Witness for C8: a blank name, an unknown name, and a known name
whose load fails, against the one-repository registry. -/
theorem getIndex_soft_fail_witness :
    wRepoState.GetIndex (fun _ => .error "parse failure") "" = (.ok none, wRepoState) ∧
    wRepoState.GetIndex (fun _ => .error "parse failure") "unknown" = (.ok none, wRepoState) ∧
    ("stable" ≠ "" ∧ mapLookup wRepoState.indices "stable" = none ∧
      ∃ ent, wRepoState.getInfo "stable" = some ent ∧
        (fun _ => (.error "parse failure" : Except String IndexFile)) ent.name
          = .error "parse failure") :=
  ⟨(getIndex_soft_fail wRepoState (fun _ => .error "parse failure") "").1 rfl,
   (getIndex_soft_fail wRepoState (fun _ => .error "parse failure") "unknown").2.1
     (by decide) (by decide),
   (getIndex_soft_fail wRepoState (fun _ => .error "parse failure") "stable").2.2
     "parse failure" rfl⟩

/-! ## Claim C7 -/

/-- mapSet on a fresh key appends, so the length grows by one. -/
theorem mapSet_length_of_fresh {α : Type} (m : List (String × α)) (k : String) (v : α)
    (hfresh : ∀ p ∈ m, p.1 ≠ k) : (mapSet m k v).length = m.length + 1 := by
  induction m with
  | nil => rfl
  | cons a t ih =>
    unfold mapSet
    have ha : a.1 ≠ k := hfresh a (by simp)
    simp only [ha, if_false]
    simp only [List.length_cons]
    rw [ih]
    intro p hp
    exact hfresh p (by simp [hp])

/-- After setting a value that satisfies the searched predicate into a
map where nothing satisfied it, find? returns exactly that value. -/
theorem find?_mapSet_self {α : Type} (m : List (String × α)) (k : String) (v : α)
    (pred : String × α → Bool)
    (hnone : m.find? pred = none) (hv : pred (k, v) = true) :
    (mapSet m k v).find? pred = some (k, v) := by
  induction m with
  | nil => simp [mapSet, List.find?, hv]
  | cons a t ih =>
    rw [List.find?_cons] at hnone
    cases hpa : pred a with
    | true => rw [hpa] at hnone; cases hnone
    | false =>
      rw [hpa] at hnone
      unfold mapSet
      by_cases hk : a.1 = k
      · simp only [hk, if_true]
        rw [List.find?_cons, hv]
      · simp only [hk, if_false]
        rw [List.find?_cons, hpa]
        exact ih hnone

/-- Claim C7: resolving the same unregistered absolute URL twice via
getInfoByURL returns a synthetic entry with the same name both times
(and the second call leaves the state unchanged), and the entry table
grows by exactly one entry across both calls.  The hypotheses say the
URL matches no registered entry and that the minted synthetic name is
fresh (with the real content-hash key a clash between a registered name
and the prefixed hash is out of scope). -/
theorem getInfoByURL_memoizes (c : ChartRepositories) (url : String)
    (hnourl : ∀ p ∈ c.repos, urlEqual p.2.url url = false)
    (hfresh : ∀ p ∈ c.repos, p.1 ≠ managerKeyPrefix ++ url) :
    (c.getInfoByURL url).1.isSome ∧
    (c.getInfoByURL url).1.map RepoEntry.name
      = ((c.getInfoByURL url).2.getInfoByURL url).1.map RepoEntry.name ∧
    ((c.getInfoByURL url).2.getInfoByURL url).2 = (c.getInfoByURL url).2 ∧
    ((c.getInfoByURL url).2.getInfoByURL url).2.repos.length = c.repos.length + 1 := by
  have hfind : c.repos.find? (fun p => urlEqual p.2.url url) = none := by
    rw [List.find?_eq_none]
    intro p hp
    simp [hnourl p hp]
  have hkey : urlEqual (syntheticEntry url).url url = true := by
    unfold urlEqual syntheticEntry
    simp
  have hfirst : c.getInfoByURL url = (some (syntheticEntry url), registerSynthetic c url) := by
    unfold ChartRepositories.getInfoByURL ChartRepositories.getInfoByF keyOf
    rw [hfind]
    rfl
  have hfind2 : (registerSynthetic c url).repos.find? (fun p => urlEqual p.2.url url)
      = some (managerKeyPrefix ++ url, syntheticEntry url) :=
    find?_mapSet_self c.repos (managerKeyPrefix ++ url) (syntheticEntry url)
      (fun p => urlEqual p.2.url url) hfind hkey
  have hsecond : (registerSynthetic c url).getInfoByURL url
      = (some (syntheticEntry url), registerSynthetic c url) := by
    unfold ChartRepositories.getInfoByURL ChartRepositories.getInfoByF
    rw [hfind2]
    rfl
  rw [hfirst]
  simp only [hsecond]
  refine ⟨?_, ?_, ?_, ?_⟩
  · simp
  · simp
  · simp
  show (mapSet c.repos (managerKeyPrefix ++ url) (syntheticEntry url)).length
      = c.repos.length + 1
  exact mapSet_length_of_fresh c.repos (managerKeyPrefix ++ url) (syntheticEntry url) hfresh

/-- Witness for C7: an unregistered URL against the one-repository
registry. -/
theorem getInfoByURL_memoizes_witness :
    (wRepoState.getInfoByURL "https://new.example.com/y").1.isSome ∧
    (wRepoState.getInfoByURL "https://new.example.com/y").1.map RepoEntry.name
      = ((wRepoState.getInfoByURL "https://new.example.com/y").2.getInfoByURL
          "https://new.example.com/y").1.map RepoEntry.name ∧
    ((wRepoState.getInfoByURL "https://new.example.com/y").2.getInfoByURL
        "https://new.example.com/y").2
      = (wRepoState.getInfoByURL "https://new.example.com/y").2 ∧
    ((wRepoState.getInfoByURL "https://new.example.com/y").2.getInfoByURL
        "https://new.example.com/y").2.repos.length = wRepoState.repos.length + 1 :=
  getInfoByURL_memoizes wRepoState "https://new.example.com/y" (by decide) (by decide)

/-! ## Claim C1 -/

/-- Claim C1 counterexample: the claim as stated fails for a requested
version string that does not parse as a version constraint — the
constraint is parsed before the exact-match scan, so Get returns the
parse error even though an entry's raw version string equals the
request exactly. -/
theorem exact_match_counterexample :
    (mkCV "c" "bogus??").Version = "bogus??" ∧
    ChartVersions.Get [mkCV "c" "bogus??"] "c" "bogus??"
      = .error .invalidConstraint := by decide

/-- Claim C1 (amended): for every chart version list and non-empty
requested version v that parses as a version constraint, if some
entry's raw version string equals v exactly then Get returns the first
such entry, regardless of whether v parses as a semantic version. -/
theorem exact_match_short_circuit (l : List ChartVersion) (name version : String)
    (hv : version ≠ "") (cs : List (List SvConstraint))
    (hcs : newConstraint version = some cs)
    (e : ChartVersion) (hfind : l.find? (fun ver => ver.Version == version) = some e) :
    ChartVersions.Get l name version = .ok e := by
  unfold ChartVersions.Get
  rw [if_neg hv, hcs]
  unfold ChartVersions.getWith
  simp only [hv, ne_eq, not_false_eq_true, if_true, hfind]

/-- Witness for C1: the spec's non-semantic-version string
"v1.0-nonstandard" requested exactly, with another entry first. -/
theorem exact_match_short_circuit_witness :
    ChartVersions.Get [mkCV "c" "2.0.0", mkCV "c" "v1.0-nonstandard"] "c"
        "v1.0-nonstandard" = .ok (mkCV "c" "v1.0-nonstandard") :=
  exact_match_short_circuit _ "c" "v1.0-nonstandard" (by decide)
    ((newConstraint "v1.0-nonstandard").getD []) (by decide) _ (by decide)

/-! ## Claim C2 -/

/-- Claim C2 counterexample: a sorted index whose chart has a non-empty
version list need not resolve the empty version to position 0 — with a
single entry whose version string is not a semantic version, Get with
the empty version returns an error instead of the entry. -/
theorem empty_version_pos0_counterexample :
    mapLookup (IndexFile.SortEntries ⟨"v1", 0, [("c", [mkCV "c" "bogus"])], [], []⟩).entries
        "c" = some [mkCV "c" "bogus"] ∧
    (IndexFile.SortEntries ⟨"v1", 0, [("c", [mkCV "c" "bogus"])], [], []⟩).Get "c" ""
      = .error .noVersionFound := by decide

/-- The match-anything constraint accepts every version without a
prerelease. -/
theorem conCheck_matchAny (sv : SemVer) (hpre : sv.pre = "") :
    conCheck matchAnyConstraint sv = true := by
  unfold conCheck
  rw [hpre]
  simp [svEqWild, matchAnyConstraint]

/-- Claim C2 (amended): for a sorted index, if the entry at position 0
of the chart's version list parses as a semantic version without a
prerelease, then Get with the empty version string returns that entry.
(As the counterexample shows, an unparseable — or prerelease — entry at
position 0 is skipped instead.) -/
theorem empty_version_sorted_head (i : IndexFile) (name : String)
    (v : ChartVersion) (vs : List ChartVersion)
    (hlk : mapLookup i.SortEntries.entries name = some (v :: vs))
    (sv : SemVer) (hv : newVersion v.Version = some sv) (hpre : sv.pre = "") :
    i.SortEntries.Get name "" = .ok v := by
  unfold IndexFile.Get IndexFile.GetVersions
  rw [hlk]
  simp only [List.length_cons, Nat.succ_ne_zero, if_false]
  unfold ChartVersions.Get
  have hstar : newConstraint "*" = some [[matchAnyConstraint]] := by rfl
  rw [if_pos rfl, hstar]
  unfold ChartVersions.getWith
  simp only [ne_eq, not_true_eq_false, if_false, Bool.false_eq_true]
  have hpred : constraintMatches [[matchAnyConstraint]] v = true := by
    unfold constraintMatches
    rw [hv]
    unfold constraintsCheck
    simp [conCheck_matchAny sv hpre]
  rw [List.find?_cons_of_pos _ hpred]

/-- Witness for C2 on a two-version index, where sorting places 2.0.0
first. -/
theorem empty_version_sorted_head_witness :
    wIndex.SortEntries.Get "app" "" = .ok (mkCV "app" "2.0.0") :=
  empty_version_sorted_head wIndex "app" (mkCV "app" "2.0.0") [mkCV "app" "1.0.0"]
    (by decide) ⟨2, 0, 0, "", ""⟩ (by decide) rfl

/-! ## Claim C6 -/

theorem mapLookup_mapSet_self {α : Type} (m : List (String × α)) (k : String) (v : α) :
    mapLookup (mapSet m k v) k = some v := by
  induction m with
  | nil => simp [mapSet, mapLookup, List.find?]
  | cons a t ih =>
    unfold mapSet
    by_cases h : a.1 = k
    · rw [if_pos h]
      unfold mapLookup
      rw [List.find?_cons]
      simp
    · rw [if_neg h]
      unfold mapLookup at ih ⊢
      rw [List.find?_cons]
      have hb : (a.1 == k) = false := by simp [h]
      simp only [hb]
      exact ih

theorem mapLookup_mapSet_other {α : Type} (m : List (String × α)) (k k' : String)
    (hne : k' ≠ k) (v : α) :
    mapLookup (mapSet m k v) k' = mapLookup m k' := by
  have hbk : (k == k') = false := by simp [Ne.symm hne]
  induction m with
  | nil =>
    unfold mapSet mapLookup
    rw [List.find?_cons]
    simp only [hbk]
  | cons a t ih =>
    unfold mapSet
    by_cases h : a.1 = k
    · rw [if_pos h]
      unfold mapLookup
      rw [List.find?_cons, List.find?_cons]
      have h2 : (a.1 == k') = false := by rw [h]; exact hbk
      simp only [hbk, h2]
    · rw [if_neg h]
      unfold mapLookup at ih ⊢
      rw [List.find?_cons, List.find?_cons]
      cases hpa : (a.1 == k') with
      | true => rfl
      | false => exact ih

theorem lookup_entriesAppend_self (es : List (String × List ChartVersion)) (k : String)
    (cv : ChartVersion) :
    mapLookup (entriesAppend es k cv) k = some ((mapLookup es k).getD [] ++ [cv]) := by
  unfold entriesAppend
  cases h : mapLookup es k with
  | none => simp [mapLookup_mapSet_self]
  | some vs => simp [mapLookup_mapSet_self]

theorem lookup_entriesAppend_other (es : List (String × List ChartVersion)) (k k' : String)
    (hne : k' ≠ k) (cv : ChartVersion) :
    mapLookup (entriesAppend es k cv) k' = mapLookup es k' := by
  unfold entriesAppend
  cases mapLookup es k <;> exact mapLookup_mapSet_other _ _ _ hne _

/-- An entry list with an exact raw-version match resolves successfully
whenever the requested version is non-empty and parses as a
constraint. -/
theorem entriesHas_of_exact (es : List (String × List ChartVersion)) (name version : String)
    (hv : version ≠ "") (cs : List (List SvConstraint)) (hcs : newConstraint version = some cs)
    (vs : List ChartVersion) (hlk : mapLookup es name = some vs)
    (hfound : (vs.find? (fun ver => ver.Version == version)).isSome = true) :
    entriesHas es name version = true := by
  obtain ⟨e, he⟩ := Option.isSome_iff_exists.mp hfound
  have hvs : ¬vs.length = 0 := by
    cases vs with
    | nil => simp [List.find?] at he
    | cons a t => simp
  have hget : ChartVersions.Get vs name version = .ok e := by
    unfold ChartVersions.Get
    rw [if_neg hv, hcs]
    unfold ChartVersions.getWith
    simp only [hv, ne_eq, not_false_eq_true, if_true, he]
  unfold entriesHas entriesGet
  simp only [hlk, hvs, if_false, hget, exceptOk]

/-- Resolution success is preserved when entries are appended at the
end of the list. -/
theorem cvGet_append_isOk (vs extra : List ChartVersion) (name version : String)
    (h : exceptOk (ChartVersions.Get vs name version) = true) :
    exceptOk (ChartVersions.Get (vs ++ extra) name version) = true := by
  unfold ChartVersions.Get at h ⊢
  cases hc : (if version = "" then newConstraint "*" else newConstraint version) with
  | none => rw [hc] at h; simp [exceptOk] at h
  | some cs =>
    rw [hc] at h
    dsimp only at h ⊢
    unfold ChartVersions.getWith at h ⊢
    cases hex : (if version ≠ "" then vs.find? (fun ver => ver.Version == version) else none) with
    | some e =>
      have hex2 : (if version ≠ "" then (vs ++ extra).find? (fun ver => ver.Version == version)
          else none) = some ((vs.find? (fun ver => ver.Version == version)).getD e) := by
        by_cases hv : version = ""
        · rw [hv] at hex; simp at hex
        · simp only [ne_eq, hv, not_false_eq_true, if_true] at hex ⊢
          rw [List.find?_append, hex]
          rfl
      rw [hex2]
      rfl
    | none =>
      rw [hex] at h
      cases hscan : vs.find? (constraintMatches cs) with
      | none => rw [hscan] at h; simp [exceptOk] at h
      | some e =>
        cases hex2 : (if version ≠ "" then (vs ++ extra).find? (fun ver => ver.Version == version)
            else none) with
        | some e2 => rfl
        | none =>
          have hfe : (vs ++ extra).find? (constraintMatches cs) = some e := by
            rw [List.find?_append, hscan]
            rfl
          rw [hfe]
          rfl

/-- Has is monotone under appending an entry to any chart's list. -/
theorem entriesHas_append_mono (es : List (String × List ChartVersion)) (k : String)
    (cv : ChartVersion) (name version : String)
    (h : entriesHas es name version = true) :
    entriesHas (entriesAppend es k cv) name version = true := by
  unfold entriesHas entriesGet at h ⊢
  cases hlk : mapLookup es name with
  | none => rw [hlk] at h; simp [exceptOk] at h
  | some vs =>
    rw [hlk] at h
    dsimp only at h
    by_cases hz : vs.length = 0
    · rw [if_pos hz] at h; simp [exceptOk] at h
    · rw [if_neg hz] at h
      by_cases hkn : k = name
      · subst hkn
        have hlk2 : mapLookup (entriesAppend es k cv) k = some (vs ++ [cv]) := by
          rw [lookup_entriesAppend_self, hlk]
          rfl
        simp only [hlk2]
        have hz2 : ¬(vs ++ [cv]).length = 0 := by simp
        rw [if_neg hz2]
        exact cvGet_append_isOk vs [cv] k version h
      · have hlk3 : mapLookup (entriesAppend es k cv) name = some vs := by
          rw [lookup_entriesAppend_other es k name (fun he => hkn he.symm) cv, hlk]
        simp only [hlk3]
        rw [if_neg hz]
        exact h

/-- Has is monotone under one merge step. -/
theorem entriesHas_mergeStep_mono (acc : List (String × List ChartVersion))
    (cv : ChartVersion) (name version : String)
    (h : entriesHas acc name version = true) :
    entriesHas (mergeStep acc cv) name version = true := by
  unfold mergeStep
  cases hh : entriesHas acc cv.Name cv.Version with
  | true => simpa using h
  | false =>
    simp only [hh, Bool.false_eq_true, if_false]
    exact entriesHas_append_mono acc cv.Name cv name version h

/-- Has is monotone under the inner merge fold. -/
theorem entriesHas_foldcvs_mono (cvs : List ChartVersion)
    (acc : List (String × List ChartVersion)) (name version : String)
    (h : entriesHas acc name version = true) :
    entriesHas (cvs.foldl mergeStep acc) name version = true := by
  induction cvs generalizing acc with
  | nil => exact h
  | cons c t ih => exact ih (mergeStep acc c) (entriesHas_mergeStep_mono acc c name version h)

/-- Has is monotone under the outer merge fold. -/
theorem entriesHas_fold_mono (src : List (String × List ChartVersion))
    (acc : List (String × List ChartVersion)) (name version : String)
    (h : entriesHas acc name version = true) :
    entriesHas (src.foldl (fun a p => p.2.foldl mergeStep a) acc) name version = true := by
  induction src generalizing acc with
  | nil => exact h
  | cons p t ih => exact ih _ (entriesHas_foldcvs_mono p.2 acc name version h)

/-- A merge step on entries already present (by Has) does nothing. -/
theorem foldcvs_no_append (es : List (String × List ChartVersion))
    (cvs : List ChartVersion)
    (h : ∀ cv ∈ cvs, entriesHas es cv.Name cv.Version = true) :
    cvs.foldl mergeStep es = es := by
  induction cvs with
  | nil => rfl
  | cons c t ih =>
    have hstep : mergeStep es c = es := by
      unfold mergeStep
      rw [h c (by simp)]
      simp
    simp only [List.foldl_cons, hstep]
    exact ih (fun cv hcv => h cv (by simp [hcv]))

/-- When every source entry is already present (by Has), the whole
merge fold does nothing. -/
theorem fold_no_append (es : List (String × List ChartVersion))
    (src : List (String × List ChartVersion))
    (h : ∀ p ∈ src, ∀ cv ∈ p.2, entriesHas es cv.Name cv.Version = true) :
    src.foldl (fun a p => p.2.foldl mergeStep a) es = es := by
  induction src with
  | nil => rfl
  | cons p t ih =>
    have hinner : p.2.foldl mergeStep es = es :=
      foldcvs_no_append es p.2 (fun cv hcv => h p (by simp) cv hcv)
    simp only [List.foldl_cons, hinner]
    exact ih (fun q hq cv hcv => h q (by simp [hq]) cv hcv)

/-- After one merge step on cv, cv's exact name and version resolve. -/
theorem entriesHas_mergeStep_self (acc : List (String × List ChartVersion))
    (cv : ChartVersion) (hv : cv.Version ≠ "")
    (hcs : (newConstraint cv.Version).isSome = true) :
    entriesHas (mergeStep acc cv) cv.Name cv.Version = true := by
  unfold mergeStep
  cases hh : entriesHas acc cv.Name cv.Version with
  | true => simpa using hh
  | false =>
    simp only [hh, Bool.false_eq_true, if_false]
    obtain ⟨cs, hcs⟩ := Option.isSome_iff_exists.mp hcs
    apply entriesHas_of_exact _ _ _ hv cs hcs _ (lookup_entriesAppend_self acc cv.Name cv)
    rw [List.find?_append]
    cases (mapLookup acc cv.Name).getD [] |>.find? (fun ver => ver.Version == cv.Version) with
    | some e => rfl
    | none => simp [List.find?]

/-- Every entry of a list resolves by exact match after the inner
merge fold over that list. -/
theorem inner_ensures (cvs : List ChartVersion) :
    ∀ es, (∀ c ∈ cvs, c.Version ≠ "" ∧ (newConstraint c.Version).isSome = true) →
      ∀ cv ∈ cvs, entriesHas (cvs.foldl mergeStep es) cv.Name cv.Version = true := by
  induction cvs with
  | nil => intro es _ cv h; cases h
  | cons c t ih =>
    intro es hq cv hcv
    rcases List.mem_cons.mp hcv with heq | hmem
    · subst heq
      simp only [List.foldl_cons]
      exact entriesHas_foldcvs_mono t (mergeStep es cv) cv.Name cv.Version
        (entriesHas_mergeStep_self es cv (hq cv (List.mem_cons_self _ _)).1
          (hq cv (List.mem_cons_self _ _)).2)
    · simp only [List.foldl_cons]
      exact ih (mergeStep es c) (fun d hd => hq d (List.mem_cons_of_mem c hd)) cv hmem

/-- After merging a source index in, every source entry's exact name
and version resolve in the result (provided source versions are
non-empty and constraint-parseable). -/
theorem merge_ensures (src : List (String × List ChartVersion)) :
    ∀ es, (∀ p ∈ src, ∀ cv ∈ p.2, cv.Version ≠ "" ∧ (newConstraint cv.Version).isSome = true) →
      ∀ p ∈ src, ∀ cv ∈ p.2,
        entriesHas (src.foldl (fun a q => q.2.foldl mergeStep a) es) cv.Name cv.Version
          = true := by
  induction src with
  | nil => intro es _ p hp; cases hp
  | cons q t ih =>
    intro es hver p hp cv hcv
    rcases List.mem_cons.mp hp with heq | hmem
    · subst heq
      simp only [List.foldl_cons]
      apply entriesHas_fold_mono
      exact inner_ensures p.2 es (fun c hc => hver p (List.mem_cons_self _ _) c hc) cv hcv
    · simp only [List.foldl_cons]
      exact ih (q.2.foldl mergeStep es)
        (fun r hr c hc => hver r (List.mem_cons_of_mem q hr) c hc) p hmem cv hcv

/-- In a map with distinct keys, every member pair is found by its
key. -/
theorem mapLookup_of_mem_nodup {α : Type} (es : List (String × α))
    (hk : (es.map Prod.fst).Nodup) (k : String) (v : α) (hmem : (k, v) ∈ es) :
    mapLookup es k = some v := by
  induction es with
  | nil => cases hmem
  | cons a t ih =>
    rw [List.map_cons, List.nodup_cons] at hk
    rcases List.mem_cons.mp hmem with heq | hmem2
    · unfold mapLookup
      rw [List.find?_cons, ← heq]
      simp
    · have hkt : k ∈ t.map Prod.fst := List.mem_map.mpr ⟨(k, v), hmem2, rfl⟩
      have hne : a.1 ≠ k := fun he => hk.1 (he ▸ hkt)
      unfold mapLookup
      rw [List.find?_cons]
      have hb : (a.1 == k) = false := by simp [hne]
      rw [hb]
      exact ih hk.2 hmem2

/-- Claim C6 counterexample: merging an index into itself can append a
duplicate — an entry whose version string parses as no constraint is
never found by Has, so the self-merge appends it again and the entries
mapping changes. -/
theorem merge_idempotent_counterexample :
    (cBadIndex.Merge cBadIndex).entries
      = [("c", [mkCV "c" "bogus??", mkCV "c" "bogus??"])] ∧
    (cBadIndex.Merge cBadIndex).entries ≠ cBadIndex.entries := by decide

/-- Claim C6 (amended): for indices whose entry lists are keyed by the
entries' own chart names, with distinct keys, and whose entries all
carry a non-empty version string that parses as a version constraint,
merging an index into itself leaves the entries mapping unchanged, and
merging B into A twice yields the same entries mapping as merging
once. -/
theorem merge_idempotent (A B : IndexFile)
    (hwfA : ∀ p ∈ A.entries, ∀ cv ∈ p.2, cv.Name = p.1)
    (hkA : (A.entries.map Prod.fst).Nodup)
    (hverA : ∀ p ∈ A.entries, ∀ cv ∈ p.2,
      cv.Version ≠ "" ∧ (newConstraint cv.Version).isSome = true)
    (hverB : ∀ p ∈ B.entries, ∀ cv ∈ p.2,
      cv.Version ≠ "" ∧ (newConstraint cv.Version).isSome = true) :
    (A.Merge A).entries = A.entries ∧
    ((A.Merge B).Merge B).entries = (A.Merge B).entries := by
  constructor
  · unfold IndexFile.Merge
    apply fold_no_append
    intro p hp cv hcv
    have hname : cv.Name = p.1 := hwfA p hp cv hcv
    have hlk : mapLookup A.entries p.1 = some p.2 :=
      mapLookup_of_mem_nodup A.entries hkA p.1 p.2 (by cases p; exact hp)
    obtain ⟨hv, hcsome⟩ := hverA p hp cv hcv
    obtain ⟨cs, hcs⟩ := Option.isSome_iff_exists.mp hcsome
    apply entriesHas_of_exact _ _ _ hv cs hcs p.2 (hname ▸ hlk)
    rw [List.find?_isSome]
    exact ⟨cv, hcv, by simp⟩
  · unfold IndexFile.Merge
    apply fold_no_append
    intro p hp cv hcv
    exact merge_ensures B.entries A.entries hverB p hp cv hcv

/-- Witness for C6 on two concrete indices. -/
theorem merge_idempotent_witness :
    (wIndex.Merge wIndex).entries = wIndex.entries ∧
    ((wIndex.Merge wIndexB).Merge wIndexB).entries = (wIndex.Merge wIndexB).entries :=
  merge_idempotent wIndex wIndexB (by decide) (by decide) (by decide) (by decide)


/-! ## Claim C4 -/

/-- Claim C4 is wrong about the code (the code is the buggy side): on a
document with one null entry and one entry failing validation, loading
"succeeds" (no error, apiVersion present) but the returned index still
contains both entries.  The null entry is only skipped by the cleanup
loop (continue, no removal), and the removal of the invalid entry
shortens a local slice header without writing it back to the entries
map, so the map still exposes the full backing array — here the
fixed-up invalid entry itself.  The last conjunct checks that the
retained entry does fail validation non-skippably. -/
theorem invalid_entries_retained :
    loadIndexProcess c4Doc
      = some (⟨"v1", 0, [("a", [none]), ("b", [mkLCV "" "" "v1"])], [], []⟩, none) ∧
    loadDrops ⟨some ⟨"", "", "v1", []⟩, [], 0, false, "", "", "", "", ""⟩ = true := by
  decide

/-! ## Claim C5 -/

/-- Claim C5 counterexample: a non-empty document that decodes
successfully (chart "a" with two null entries, no apiVersion) makes
loadIndex panic instead of returning the processed index with the
missing-API-version error: the cleanup loop leaves the null entries in
place, and the sort comparator dereferences the first of them
(ChartVersions.Less reads c[a].Version).  The model maps the panic to
none. -/
theorem missing_api_version_panic_counterexample :
    loadIndexProcess ⟨"", 0, [("a", [none, none])], [], []⟩ = none := by decide

/-- Claim C5 (amended): for every decoded document without a top-level
apiVersion whose processing completes (no nil-entry panic inside the
sort — see C4), loadIndex runs entry cleanup and sorting first and
returns the cleaned-and-sorted index, not nil, together with the
missing-API-version error. -/
theorem missing_api_version_partial_index (d : LoadedIndexFile)
    (hapi : d.apiVersion = "")
    (out : LoadedIndexFile × Option LoadError)
    (hout : loadIndexProcess d = some out) :
    out.2 = some .noAPIVersion ∧
    (sortLoadedEntries (d.entries.map (fun p => (p.1, cleanupList p.2)))).map
      (fun sorted => (({ d with entries := sorted } : LoadedIndexFile),
        some LoadError.noAPIVersion))
      = some out := by
  unfold loadIndexProcess at hout
  cases hs : sortLoadedEntries (d.entries.map (fun p => (p.1, cleanupList p.2))) with
  | none => rw [hs] at hout; cases hout
  | some sorted =>
    rw [hs] at hout
    dsimp only at hout
    rw [if_pos hapi] at hout
    cases hout
    exact ⟨rfl, rfl⟩

/-- Witness for C5 at a concrete document. -/
theorem missing_api_version_partial_index_witness :
    c5Out.2 = some .noAPIVersion ∧
    (sortLoadedEntries (c5Doc.entries.map (fun p => (p.1, cleanupList p.2)))).map
      (fun sorted => (({ c5Doc with entries := sorted } : LoadedIndexFile),
        some LoadError.noAPIVersion))
      = some c5Out :=
  missing_api_version_partial_index c5Doc rfl c5Out (by decide)

/-! ## Claim C3: order-theoretic facts about the version comparator -/

theorem natCmp_swap (a b : Nat) : (compare a b).swap = compare b a := by
  rcases Nat.lt_trichotomy a b with h | h | h
  · rw [Nat.compare_eq_lt.mpr h, Nat.compare_eq_gt.mpr h]
    rfl
  · subst h
    rw [Nat.compare_eq_eq.mpr rfl]
    rfl
  · rw [Nat.compare_eq_gt.mpr h, Nat.compare_eq_lt.mpr h]
    rfl

theorem natCmp_ltTrans (a b c : Nat) (h1 : compare a b = .lt) (h2 : compare b c = .lt) :
    compare a c = .lt := by
  rw [Nat.compare_eq_lt] at h1 h2 ⊢
  omega

theorem natCmp_eqCongr (a b : Nat) (h : compare a b = .eq) (c : Nat) :
    compare a c = compare b c := by
  rw [Nat.compare_eq_eq] at h
  rw [h]

/-- Right congruence follows from swap and left congruence. -/
theorem cmp_eqCongr_right {α : Type} (cmp : α → α → Ordering)
    (hs : ∀ a b, (cmp a b).swap = cmp b a)
    (hc : ∀ a b, cmp a b = .eq → ∀ c, cmp a c = cmp b c)
    (a b : α) (he : cmp a b = .eq) (c : α) : cmp c a = cmp c b := by
  rw [← hs a c, ← hs b c, hc a b he c]

theorem lexListCmp_swap {α : Type} (cmp : α → α → Ordering)
    (h : ∀ a b, (cmp a b).swap = cmp b a) :
    ∀ a b, (lexListCmp cmp a b).swap = lexListCmp cmp b a := by
  intro a
  induction a with
  | nil => intro b; cases b <;> rfl
  | cons x xs ih =>
    intro b
    cases b with
    | nil => rfl
    | cons y ys =>
      show ((cmp x y).then (lexListCmp cmp xs ys)).swap = (cmp y x).then (lexListCmp cmp ys xs)
      rw [Ordering.swap_then, h, ih]

theorem lexListCmp_ltTrans {α : Type} (cmp : α → α → Ordering)
    (hs : ∀ a b, (cmp a b).swap = cmp b a)
    (ht : ∀ a b c, cmp a b = .lt → cmp b c = .lt → cmp a c = .lt)
    (hc : ∀ a b, cmp a b = .eq → ∀ c, cmp a c = cmp b c) :
    ∀ a b c, lexListCmp cmp a b = .lt → lexListCmp cmp b c = .lt →
      lexListCmp cmp a c = .lt := by
  intro a
  induction a with
  | nil =>
    intro b c h1 h2
    cases b with
    | nil => simp [lexListCmp] at h1
    | cons y ys =>
      cases c with
      | nil => simp [lexListCmp] at h2
      | cons z zs => rfl
  | cons x xs ih =>
    intro b c h1 h2
    cases b with
    | nil => simp [lexListCmp] at h1
    | cons y ys =>
      cases c with
      | nil => simp [lexListCmp] at h2
      | cons z zs =>
        rw [show lexListCmp cmp (x :: xs) (y :: ys)
            = (cmp x y).then (lexListCmp cmp xs ys) from rfl, Ordering.then_eq_lt] at h1
        rw [show lexListCmp cmp (y :: ys) (z :: zs)
            = (cmp y z).then (lexListCmp cmp ys zs) from rfl, Ordering.then_eq_lt] at h2
        rw [show lexListCmp cmp (x :: xs) (z :: zs)
            = (cmp x z).then (lexListCmp cmp xs zs) from rfl, Ordering.then_eq_lt]
        rcases h1 with h1 | ⟨h1e, h1l⟩
        · rcases h2 with h2 | ⟨h2e, h2l⟩
          · exact Or.inl (ht _ _ _ h1 h2)
          · exact Or.inl (by rw [← cmp_eqCongr_right cmp hs hc y z h2e x]; exact h1)
        · rcases h2 with h2 | ⟨h2e, h2l⟩
          · exact Or.inl (by rw [hc x y h1e z]; exact h2)
          · exact Or.inr ⟨by rw [hc x y h1e z]; exact h2e, ih ys zs h1l h2l⟩

theorem lexListCmp_eqCongr {α : Type} (cmp : α → α → Ordering)
    (hc : ∀ a b, cmp a b = .eq → ∀ c, cmp a c = cmp b c) :
    ∀ a b, lexListCmp cmp a b = .eq → ∀ c, lexListCmp cmp a c = lexListCmp cmp b c := by
  intro a
  induction a with
  | nil =>
    intro b h c
    cases b with
    | nil => rfl
    | cons y ys => simp [lexListCmp] at h
  | cons x xs ih =>
    intro b h c
    cases b with
    | nil => simp [lexListCmp] at h
    | cons y ys =>
      rw [show lexListCmp cmp (x :: xs) (y :: ys)
          = (cmp x y).then (lexListCmp cmp xs ys) from rfl, Ordering.then_eq_eq] at h
      cases c with
      | nil => rfl
      | cons z zs =>
        show (cmp x z).then (lexListCmp cmp xs zs) = (cmp y z).then (lexListCmp cmp ys zs)
        rw [hc x y h.1 z, ih ys h.2 zs]

theorem charCmp_swap (a b : Char) : (charCmp a b).swap = charCmp b a :=
  natCmp_swap _ _

theorem charCmp_ltTrans (a b c : Char) (h1 : charCmp a b = .lt) (h2 : charCmp b c = .lt) :
    charCmp a c = .lt :=
  natCmp_ltTrans _ _ _ h1 h2

theorem charCmp_eqCongr (a b : Char) (h : charCmp a b = .eq) (c : Char) :
    charCmp a c = charCmp b c :=
  natCmp_eqCongr _ _ h _

theorem strLexCmp_swap (a b : List Char) : (strLexCmp a b).swap = strLexCmp b a :=
  lexListCmp_swap charCmp charCmp_swap a b

theorem strLexCmp_ltTrans (a b c : List Char) (h1 : strLexCmp a b = .lt)
    (h2 : strLexCmp b c = .lt) : strLexCmp a c = .lt :=
  lexListCmp_ltTrans charCmp charCmp_swap charCmp_ltTrans charCmp_eqCongr a b c h1 h2

theorem strLexCmp_eqCongr (a b : List Char) (h : strLexCmp a b = .eq) (c : List Char) :
    strLexCmp a c = strLexCmp b c :=
  lexListCmp_eqCongr charCmp charCmp_eqCongr a b h c

theorem identCmp_swap (a b : List Char) : (identCmp a b).swap = identCmp b a := by
  unfold identCmp
  by_cases ha : identIsNum a = true <;> by_cases hb : identIsNum b = true <;>
    simp only [ha, hb, if_true, if_false, Bool.false_eq_true] <;>
    first
      | rfl
      | exact natCmp_swap _ _
      | exact strLexCmp_swap a b

theorem identCmp_ltTrans (a b c : List Char) (h1 : identCmp a b = .lt)
    (h2 : identCmp b c = .lt) : identCmp a c = .lt := by
  unfold identCmp at h1 h2 ⊢
  by_cases ha : identIsNum a = true <;> by_cases hb : identIsNum b = true <;>
    by_cases hc2 : identIsNum c = true <;>
    simp only [ha, hb, hc2, if_true, if_false, Bool.false_eq_true] at h1 h2 ⊢ <;>
    first
      | rfl
      | exact Ordering.noConfusion h1
      | exact Ordering.noConfusion h2
      | exact natCmp_ltTrans _ _ _ h1 h2
      | exact strLexCmp_ltTrans a b c h1 h2

theorem identCmp_eqCongr (a b : List Char) (h : identCmp a b = .eq) (c : List Char) :
    identCmp a c = identCmp b c := by
  unfold identCmp at h ⊢
  by_cases ha : identIsNum a = true <;> by_cases hb : identIsNum b = true <;>
    by_cases hc2 : identIsNum c = true <;>
    simp only [ha, hb, hc2, if_true, if_false, Bool.false_eq_true] at h ⊢ <;>
    first
      | rfl
      | exact Ordering.noConfusion h
      | exact natCmp_eqCongr _ _ h _
      | exact strLexCmp_eqCongr a b h c

theorem identListCmp_swap (a b : List (List Char)) :
    (identListCmp a b).swap = identListCmp b a :=
  lexListCmp_swap identCmp identCmp_swap a b

theorem identListCmp_ltTrans (a b c : List (List Char)) (h1 : identListCmp a b = .lt)
    (h2 : identListCmp b c = .lt) : identListCmp a c = .lt :=
  lexListCmp_ltTrans identCmp identCmp_swap identCmp_ltTrans identCmp_eqCongr a b c h1 h2

theorem identListCmp_eqCongr (a b : List (List Char)) (h : identListCmp a b = .eq)
    (c : List (List Char)) : identListCmp a c = identListCmp b c :=
  lexListCmp_eqCongr identCmp identCmp_eqCongr a b h c

theorem preCmp_swap (p q : String) : (preCmp p q).swap = preCmp q p := by
  unfold preCmp
  by_cases hp : p = "" <;> by_cases hq : q = "" <;>
    simp only [hp, hq, if_true, if_false] <;>
    first
      | rfl
      | exact identListCmp_swap _ _

theorem preCmp_ltTrans (p q r : String) (h1 : preCmp p q = .lt) (h2 : preCmp q r = .lt) :
    preCmp p r = .lt := by
  unfold preCmp at h1 h2 ⊢
  by_cases hp : p = "" <;> by_cases hq : q = "" <;> by_cases hr : r = "" <;>
    simp only [hp, hq, hr, if_true, if_false] at h1 h2 ⊢ <;>
    first
      | rfl
      | exact Ordering.noConfusion h1
      | exact Ordering.noConfusion h2
      | exact identListCmp_ltTrans _ _ _ h1 h2

theorem preCmp_eqCongr (p q : String) (h : preCmp p q = .eq) (r : String) :
    preCmp p r = preCmp q r := by
  unfold preCmp at h ⊢
  by_cases hp : p = "" <;> by_cases hq : q = "" <;> by_cases hr : r = "" <;>
    simp only [hp, hq, hr, if_true, if_false] at h ⊢ <;>
    first
      | rfl
      | exact Ordering.noConfusion h
      | exact identListCmp_eqCongr _ _ h _

theorem cmpThen_swap {α : Type} (f g : α → α → Ordering)
    (hfs : ∀ a b, (f a b).swap = f b a) (hgs : ∀ a b, (g a b).swap = g b a)
    (a b : α) : ((f a b).then (g a b)).swap = (f b a).then (g b a) := by
  rw [Ordering.swap_then, hfs, hgs]

theorem cmpThen_ltTrans {α : Type} (f g : α → α → Ordering)
    (hfs : ∀ a b, (f a b).swap = f b a)
    (hft : ∀ a b c, f a b = .lt → f b c = .lt → f a c = .lt)
    (hfc : ∀ a b, f a b = .eq → ∀ c, f a c = f b c)
    (hgt : ∀ a b c, g a b = .lt → g b c = .lt → g a c = .lt)
    (a b c : α) (h1 : (f a b).then (g a b) = .lt) (h2 : (f b c).then (g b c) = .lt) :
    (f a c).then (g a c) = .lt := by
  rw [Ordering.then_eq_lt] at h1 h2 ⊢
  rcases h1 with h1 | ⟨h1e, h1l⟩
  · rcases h2 with h2 | ⟨h2e, h2l⟩
    · exact Or.inl (hft _ _ _ h1 h2)
    · exact Or.inl (by rw [← cmp_eqCongr_right f hfs hfc b c h2e a]; exact h1)
  · rcases h2 with h2 | ⟨h2e, h2l⟩
    · exact Or.inl (by rw [hfc a b h1e c]; exact h2)
    · exact Or.inr ⟨by rw [hfc a b h1e c]; exact h2e, hgt _ _ _ h1l h2l⟩

theorem cmpThen_eqCongr {α : Type} (f g : α → α → Ordering)
    (hfc : ∀ a b, f a b = .eq → ∀ c, f a c = f b c)
    (hgc : ∀ a b, g a b = .eq → ∀ c, g a c = g b c)
    (a b : α) (h : (f a b).then (g a b) = .eq) (c : α) :
    (f a c).then (g a c) = (f b c).then (g b c) := by
  rw [Ordering.then_eq_eq] at h
  rw [hfc a b h.1 c, hgc a b h.2 c]

theorem svCmp_swap (a b : SemVer) : (svCmp a b).swap = svCmp b a := by
  unfold svCmp
  rw [Ordering.swap_then, Ordering.swap_then, Ordering.swap_then,
    natCmp_swap, natCmp_swap, natCmp_swap, preCmp_swap]

theorem svCmp_ltTrans (a b c : SemVer) (h1 : svCmp a b = .lt) (h2 : svCmp b c = .lt) :
    svCmp a c = .lt := by
  unfold svCmp at h1 h2 ⊢
  refine cmpThen_ltTrans (fun x y => compare x.major y.major)
    (fun x y => (compare x.minor y.minor).then
      ((compare x.patch y.patch).then (preCmp x.pre y.pre)))
    (fun x y => natCmp_swap x.major y.major)
    (fun x y z => natCmp_ltTrans x.major y.major z.major)
    (fun x y hxy z => natCmp_eqCongr x.major y.major hxy z.major) ?_ a b c h1 h2
  intro a b c h1 h2
  refine cmpThen_ltTrans (fun x y => compare x.minor y.minor)
    (fun x y => (compare x.patch y.patch).then (preCmp x.pre y.pre))
    (fun x y => natCmp_swap x.minor y.minor)
    (fun x y z => natCmp_ltTrans x.minor y.minor z.minor)
    (fun x y hxy z => natCmp_eqCongr x.minor y.minor hxy z.minor) ?_ a b c h1 h2
  intro a b c h1 h2
  exact cmpThen_ltTrans (fun x y => compare x.patch y.patch)
    (fun x y => preCmp x.pre y.pre)
    (fun x y => natCmp_swap x.patch y.patch)
    (fun x y z => natCmp_ltTrans x.patch y.patch z.patch)
    (fun x y hxy z => natCmp_eqCongr x.patch y.patch hxy z.patch)
    (fun x y z => preCmp_ltTrans x.pre y.pre z.pre) a b c h1 h2

theorem svCmp_eqCongr (a b : SemVer) (h : svCmp a b = .eq) (c : SemVer) :
    svCmp a c = svCmp b c := by
  unfold svCmp at h ⊢
  refine cmpThen_eqCongr (fun x y => compare x.major y.major)
    (fun x y => (compare x.minor y.minor).then
      ((compare x.patch y.patch).then (preCmp x.pre y.pre)))
    (fun x y hxy z => natCmp_eqCongr x.major y.major hxy z.major) ?_ a b h c
  intro a b h c
  refine cmpThen_eqCongr (fun x y => compare x.minor y.minor)
    (fun x y => (compare x.patch y.patch).then (preCmp x.pre y.pre))
    (fun x y hxy z => natCmp_eqCongr x.minor y.minor hxy z.minor) ?_ a b h c
  intro a b h c
  exact cmpThen_eqCongr (fun x y => compare x.patch y.patch)
    (fun x y => preCmp x.pre y.pre)
    (fun x y hxy z => natCmp_eqCongr x.patch y.patch hxy z.patch)
    (fun x y hxy z => preCmp_eqCongr x.pre y.pre hxy z.pre) a b h c

theorem svCmp_eqCongr_right (a b : SemVer) (h : svCmp a b = .eq) (c : SemVer) :
    svCmp c a = svCmp c b :=
  cmp_eqCongr_right svCmp svCmp_swap svCmp_eqCongr a b h c

/-- Not-less-than is transitive for the version comparator. -/
theorem svGe_trans (a b c : SemVer) (hab : svCmp a b ≠ .lt) (hbc : svCmp b c ≠ .lt) :
    svCmp a c ≠ .lt := by
  intro hac
  cases h1 : svCmp a b with
  | lt => exact hab h1
  | eq => exact hbc (by rw [← svCmp_eqCongr a b h1 c]; exact hac)
  | gt =>
    cases h2 : svCmp b c with
    | lt => exact hbc h2
    | eq =>
      have h3 := svCmp_eqCongr_right b c h2 a
      rw [← h3, h1] at hac
      cases hac
    | gt =>
      have hba : svCmp b a = .lt := by rw [← svCmp_swap a b, h1]; rfl
      have hcb : svCmp c b = .lt := by rw [← svCmp_swap b c, h2]; rfl
      have hca := svCmp_ltTrans c b a hcb hba
      rw [← svCmp_swap c a, hca] at hac
      cases hac

theorem svLt_asymm (a b : SemVer) (h : svCmp a b = .lt) : svCmp b a ≠ .lt := by
  rw [← svCmp_swap a b, h]
  intro hc
  cases hc

/-! ### Facts about sortedGE and the Less comparator -/

theorem svLt_eq_false_iff (a b : SemVer) : svLt a b = false ↔ svCmp a b ≠ .lt := by
  unfold svLt
  cases svCmp a b <;> simp <;> decide

theorem ordBeq_lt_true {o : Ordering} (h : (o == Ordering.lt) = true) : o = .lt := by
  cases o <;> first | rfl | exact absurd h (by decide)

theorem ordBeq_eq_true {o : Ordering} (h : (o == Ordering.eq) = true) : o = .eq := by
  cases o <;> first | rfl | exact absurd h (by decide)

theorem sortedGE_trans (a b c : ChartVersion) (h1 : sortedGE a b) (h2 : sortedGE b c) :
    sortedGE a c := by
  unfold sortedGE at h1 h2 ⊢
  cases hpa : newVersion a.Version with
  | none =>
    cases hpb : newVersion b.Version with
    | none =>
      cases hpc : newVersion c.Version with
      | none => trivial
      | some vc =>
        rw [hpb, hpc] at h2
        exact (h2 : False).elim
    | some vb =>
      rw [hpa, hpb] at h1
      exact (h1 : False).elim
  | some va =>
    cases hpb : newVersion b.Version with
    | none =>
      cases hpc : newVersion c.Version with
      | none => trivial
      | some vc =>
        rw [hpb, hpc] at h2
        exact (h2 : False).elim
    | some vb =>
      cases hpc : newVersion c.Version with
      | none => trivial
      | some vc =>
        rw [hpa, hpb] at h1
        rw [hpb, hpc] at h2
        have h1a : svLt va vb = false := h1
        have h2a : svLt vb vc = false := h2
        show svLt va vc = false
        rw [svLt_eq_false_iff] at h1a h2a ⊢
        exact svGe_trans va vb vc h1a h2a

/-- When the comparator says y is less than x, x is at-least y. -/
theorem cvLess_true_sortedGE (y x : ChartVersion) (h : cvLess y x = true) : sortedGE x y := by
  unfold cvLess at h
  unfold sortedGE
  cases hpy : newVersion y.Version with
  | none =>
    cases hpx : newVersion x.Version with
    | none => trivial
    | some vx => trivial
  | some vy =>
    rw [hpy] at h
    cases hpx : newVersion x.Version with
    | none =>
      rw [hpx] at h
      have hb : false = true := h
      exact absurd hb (by decide)
    | some vx =>
      rw [hpx] at h
      have ha : svLt vy vx = true := h
      show svLt vx vy = false
      rw [svLt_eq_false_iff]
      exact svLt_asymm vy vx (ordBeq_lt_true ha)

/-- When the comparator says y is not less than x, y is at-least x. -/
theorem cvLess_false_sortedGE (y x : ChartVersion) (h : cvLess y x = false) :
    sortedGE y x := by
  unfold cvLess at h
  unfold sortedGE
  cases hpy : newVersion y.Version with
  | none =>
    rw [hpy] at h
    have hb : true = false := h
    exact absurd hb (by decide)
  | some vy =>
    rw [hpy] at h
    cases hpx : newVersion x.Version with
    | none => trivial
    | some vx =>
      rw [hpx] at h
      exact h

/-! ### The insertion sort in the reversed world -/

/-- goInsertRev places x right before the maximal prefix of the
reversed accumulator whose entries the comparator ranks below x. -/
theorem goInsertRev_eq (x : ChartVersion) (r : List ChartVersion) :
    goInsertRev x r
      = r.takeWhile (fun y => cvLess y x) ++ x :: r.dropWhile (fun y => cvLess y x) := by
  induction r with
  | nil => rfl
  | cons y ys ih =>
    unfold goInsertRev
    cases h : cvLess y x with
    | true => simp [List.takeWhile_cons, List.dropWhile_cons, h, ih]
    | false => simp [List.takeWhile_cons, List.dropWhile_cons, h]

theorem foldl_goInsert_reverse (l : List ChartVersion) :
    ∀ acc, (l.foldl goInsert acc).reverse = l.foldl (fun r x => goInsertRev x r) acc.reverse := by
  induction l with
  | nil => intro acc; rfl
  | cons x xs ih =>
    intro acc
    simp only [List.foldl_cons]
    rw [ih (goInsert acc x)]
    congr 1
    unfold goInsert
    rw [List.reverse_reverse]

/-- sortDescending is the reverse of the reversed-world fold. -/
theorem sortDescending_eq_revSortFold (l : List ChartVersion) :
    sortDescending l = (revSortFold l).reverse := by
  have h := foldl_goInsert_reverse l []
  rw [List.reverse_nil] at h
  unfold sortDescending revSortFold
  rw [← h, List.reverse_reverse]

theorem dropWhile_head_false {α : Type} (p : α → Bool) (l : List α) (z : α) (rest : List α)
    (h : l.dropWhile p = z :: rest) : p z = false := by
  induction l with
  | nil => cases h
  | cons a t ih =>
    rw [List.dropWhile_cons] at h
    by_cases hpa : p a = true
    · rw [if_pos hpa] at h
      exact ih h
    · rw [if_neg hpa] at h
      cases h
      exact Bool.not_eq_true _ |>.mp hpa

/-- Inserting preserves the reversed-world pairwise order (the flip of
sortedGE). -/
theorem goInsertRev_pairwise (x : ChartVersion) (r : List ChartVersion)
    (h : r.Pairwise (fun a b => sortedGE b a)) :
    (goInsertRev x r).Pairwise (fun a b => sortedGE b a) := by
  rw [goInsertRev_eq]
  have hsplit : r.takeWhile (fun y => cvLess y x) ++ r.dropWhile (fun y => cvLess y x) = r :=
    List.takeWhile_append_dropWhile _ _
  rw [← hsplit] at h
  rw [List.pairwise_append] at h
  obtain ⟨htk, hdp, hcross⟩ := h
  rw [List.pairwise_append]
  refine ⟨htk, ?_, ?_⟩
  · rw [List.pairwise_cons]
    refine ⟨?_, hdp⟩
    intro z hz
    cases hddef : r.dropWhile (fun y => cvLess y x) with
    | nil => rw [hddef] at hz; cases hz
    | cons z0 rest =>
      have hz0 : cvLess z0 x = false := dropWhile_head_false _ r z0 rest hddef
      have hz0x : sortedGE z0 x := cvLess_false_sortedGE z0 x hz0
      rw [hddef] at hz hdp
      rcases List.mem_cons.mp hz with heq | hmem
      · exact heq ▸ hz0x
      · have : sortedGE z z0 := (List.pairwise_cons.mp hdp).1 z hmem
        exact sortedGE_trans z z0 x this hz0x
  · intro a ha b hb
    rcases List.mem_cons.mp hb with heq | hmem
    · subst heq
      have hax : cvLess a b = true := by simpa using List.mem_takeWhile_imp ha
      exact cvLess_true_sortedGE a b hax
    · exact hcross a ha b hmem

/-- Inserting x adds it in front of the class filter when x belongs to
the class, and does not disturb the filter otherwise. -/
theorem goInsertRev_filter_eqVer (x : ChartVersion) (r : List ChartVersion) (w : SemVer) :
    (goInsertRev x r).filter (eqVer w)
      = if eqVer w x then x :: r.filter (eqVer w) else r.filter (eqVer w) := by
  rw [goInsertRev_eq]
  rw [List.filter_append]
  have hr : r.filter (eqVer w)
      = (r.takeWhile (fun y => cvLess y x)).filter (eqVer w)
        ++ (r.dropWhile (fun y => cvLess y x)).filter (eqVer w) := by
    rw [← List.filter_append]
    rw [List.takeWhile_append_dropWhile]
  by_cases hx : eqVer w x = true
  · have htk : (r.takeWhile (fun y => cvLess y x)).filter (eqVer w) = [] := by
      rw [List.filter_eq_nil]
      intro y hy
      have hyx : cvLess y x = true := by simpa using List.mem_takeWhile_imp hy
      -- a class member cannot be ranked strictly below another class member
      unfold eqVer at hx ⊢
      cases hpy : newVersion y.Version with
      | none => simp
      | some vy =>
        simp only [hpy]
        unfold cvLess at hyx
        rw [hpy] at hyx
        cases hpx : newVersion x.Version with
        | none => rw [hpx] at hyx; cases hyx
        | some vx =>
          rw [hpx] at hyx
          rw [hpx] at hx
          have hlt : svCmp vy vx = .lt := ordBeq_lt_true hyx
          have hxw : svCmp vx w = .eq := ordBeq_eq_true hx
          intro hcon
          have hyw : svCmp vy w = .eq := ordBeq_eq_true hcon
          have h1 : svCmp vy vx = svCmp vy w := svCmp_eqCongr_right vx w hxw vy
          rw [h1, hyw] at hlt
          cases hlt
    rw [if_pos hx, hr, htk]
    simp [hx]
  · have hxf : eqVer w x = false := Bool.not_eq_true _ |>.mp hx
    rw [if_neg hx, hr]
    simp [hxf]

/-- Inserting a parseable x leaves the unparseable filter unchanged; an
unparseable x lands at its end (given the pairwise invariant, which
keeps all unparseable entries in front of all parseable ones in the
reversed world). -/
theorem goInsertRev_filter_unparse (x : ChartVersion) (r : List ChartVersion)
    (hpw : r.Pairwise (fun a b => sortedGE b a)) :
    (goInsertRev x r).filter (fun e => !cvParses e)
      = if cvParses x then r.filter (fun e => !cvParses e)
        else r.filter (fun e => !cvParses e) ++ [x] := by
  rw [goInsertRev_eq, List.filter_append]
  have hr : r.filter (fun e => !cvParses e)
      = (r.takeWhile (fun y => cvLess y x)).filter (fun e => !cvParses e)
        ++ (r.dropWhile (fun y => cvLess y x)).filter (fun e => !cvParses e) := by
    rw [← List.filter_append, List.takeWhile_append_dropWhile]
  by_cases hx : cvParses x = true
  · rw [if_pos hx, hr]
    simp [hx]
  · have hxf : cvParses x = false := Bool.not_eq_true _ |>.mp hx
    have hdp : (r.dropWhile (fun y => cvLess y x)).filter (fun e => !cvParses e) = [] := by
      rw [List.filter_eq_nil]
      intro z hz
      -- no unparseable entry sits in the dropped part
      have hzmem := hz
      cases hddef : r.dropWhile (fun y => cvLess y x) with
      | nil => rw [hddef] at hz; cases hz
      | cons z0 rest =>
        have hz0 : cvLess z0 x = false := dropWhile_head_false _ r z0 rest hddef
        -- z0 is parseable: an unparseable z0 would satisfy cvLess z0 x
        have hz0p : cvParses z0 = true := by
          unfold cvLess at hz0
          unfold cvParses
          cases hpz0 : newVersion z0.Version with
          | none => rw [hpz0] at hz0; cases hz0
          | some v => simp
        rw [hddef] at hz
        have hsplit : r.takeWhile (fun y => cvLess y x)
            ++ r.dropWhile (fun y => cvLess y x) = r :=
          List.takeWhile_append_dropWhile _ _
        have hdp2 : (r.dropWhile (fun y => cvLess y x)).Pairwise
            (fun a b => sortedGE b a) := by
          rw [← hsplit, List.pairwise_append] at hpw
          exact hpw.2.1
        rw [hddef] at hdp2
        rcases List.mem_cons.mp hz with heq | hmem
        · subst heq
          simp [hz0p]
        · -- z after z0: sortedGE z z0 forbids unparseable z over parseable z0
          have hge : sortedGE z z0 := (List.pairwise_cons.mp hdp2).1 z hmem
          unfold sortedGE at hge
          unfold cvParses
          cases hpz : newVersion z.Version with
          | none =>
            rw [hpz] at hge
            unfold cvParses at hz0p
            cases hpz0 : newVersion z0.Version with
            | none => rw [hpz0] at hz0p; cases hz0p
            | some v0 =>
              rw [hpz0] at hge
              exact (hge : False).elim
          | some v => simp
    have htk : (r.takeWhile (fun y => cvLess y x)).filter (fun e => !cvParses e)
        = r.takeWhile (fun y => cvLess y x) := by
      rw [List.filter_eq_self]
      intro y hy
      have hyx : cvLess y x = true := by simpa using List.mem_takeWhile_imp hy
      -- with x unparseable, only unparseable y can pass it
      unfold cvLess at hyx
      unfold cvParses
      cases hpy : newVersion y.Version with
      | none => simp
      | some vy =>
        rw [hpy] at hyx
        unfold cvParses at hxf
        cases hpx : newVersion x.Version with
        | none => rw [hpx] at hyx; cases hyx
        | some vx => rw [hpx] at hxf; cases hxf
    rw [if_neg hx, hr, hdp, htk]
    simp [List.filter_cons, hxf, hdp]

theorem goInsertRev_perm (x : ChartVersion) (r : List ChartVersion) :
    (goInsertRev x r).Perm (x :: r) := by
  rw [goInsertRev_eq]
  have h : (r.takeWhile (fun y => cvLess y x) ++ x :: r.dropWhile (fun y => cvLess y x)).Perm
      (x :: (r.takeWhile (fun y => cvLess y x) ++ r.dropWhile (fun y => cvLess y x))) :=
    List.perm_middle
  rw [List.takeWhile_append_dropWhile] at h
  exact h

/-- The joint invariant of the reversed-world fold: the accumulator is
pairwise sorted in the flipped order, preserves every equal-precedence
class filter up to reversal, carries the unparseable entries in input
order, and is a permutation of the input. -/
theorem revSortFold_invariant (l : List ChartVersion) :
    (revSortFold l).Pairwise (fun a b => sortedGE b a)
    ∧ (∀ w : SemVer, (revSortFold l).filter (eqVer w) = (l.filter (eqVer w)).reverse)
    ∧ (revSortFold l).filter (fun e => !cvParses e) = l.filter (fun e => !cvParses e)
    ∧ (revSortFold l).Perm l := by
  induction l using List.reverseRecOn with
  | nil => refine ⟨by simp [revSortFold], fun w => by simp [revSortFold],
      by simp [revSortFold], by simp [revSortFold]⟩
  | append_singleton t x ih =>
    have hstep : revSortFold (t ++ [x]) = goInsertRev x (revSortFold t) := by
      unfold revSortFold
      rw [List.foldl_append]
      rfl
    obtain ⟨ih1, ih2, ih3, ih4⟩ := ih
    refine ⟨?_, ?_, ?_, ?_⟩
    · rw [hstep]
      exact goInsertRev_pairwise x _ ih1
    · intro w
      rw [hstep, goInsertRev_filter_eqVer, List.filter_append, ih2 w]
      by_cases hx : eqVer w x = true
      · rw [if_pos hx]
        simp [List.filter_cons, hx]
      · have hxf : eqVer w x = false := Bool.not_eq_true _ |>.mp hx
        rw [if_neg hx]
        simp [List.filter_cons, hxf]
    · rw [hstep, goInsertRev_filter_unparse x _ ih1, List.filter_append, ih3]
      by_cases hx : cvParses x = true
      · rw [if_pos hx]
        simp [List.filter_cons, hx]
      · have hxf : cvParses x = false := Bool.not_eq_true _ |>.mp hx
        rw [if_neg hx]
        simp [List.filter_cons, hxf]
    · rw [hstep]
      have h1 := goInsertRev_perm x (revSortFold t)
      have h2 : (x :: revSortFold t).Perm (x :: t) := ih4.cons x
      have h3 : ([x] ++ t).Perm (t ++ [x]) := List.perm_append_comm
      exact (h1.trans h2).trans h3

/-- The characterization transported to the normal order: sortDescending
is a permutation, pairwise non-increasing, keeps each equal-precedence
class in input order, and reverses the relative order of the
unparseable entries. -/
theorem sortDescending_spec (l : List ChartVersion) :
    (sortDescending l).Pairwise sortedGE
    ∧ (∀ w : SemVer, (sortDescending l).filter (eqVer w) = l.filter (eqVer w))
    ∧ (sortDescending l).filter (fun e => !cvParses e)
        = (l.filter (fun e => !cvParses e)).reverse
    ∧ (sortDescending l).Perm l := by
  obtain ⟨h1, h2, h3, h4⟩ := revSortFold_invariant l
  rw [sortDescending_eq_revSortFold]
  refine ⟨?_, ?_, ?_, ?_⟩
  · rw [List.pairwise_reverse]
    exact h1
  · intro w
    rw [List.filter_reverse, h2 w, List.reverse_reverse]
  · rw [List.filter_reverse, h3]
  · exact (List.reverse_perm _).trans h4

/-- Looking a key up after mapping a function over the values of an
association list maps the function over the result. -/
theorem mapLookup_map_snd {α β : Type} (f : α → β) (m : List (String × α)) (k : String) :
    mapLookup (m.map (fun p => (p.1, f p.2))) k = (mapLookup m k).map f := by
  induction m with
  | nil => rfl
  | cons p rest ih =>
    by_cases h : (p.1 == k) = true
    · simp [mapLookup, List.find?, h]
    · have hf : (p.1 == k) = false := Bool.not_eq_true _ |>.mp h
      simp only [mapLookup, List.map_cons, List.find?, hf] at ih ⊢
      exact ih

/-- C3: for a chart whose version list has at most 12 entries (the
regime in which Go's sort.Sort runs the insertion sort this file
models; longer slices use an unstable quicksort with no order
guarantee), SortEntries replaces the list with its descending sort: a
permutation of the original that is pairwise non-increasing by
semantic-version precedence with every unparseable entry after all
parseable ones, preserves the input order inside each class of entries
of equal precedence, but reverses the relative order of the
unparseable entries — so the relative order of entries without
parseable versions is NOT preserved, refuting the stability part of
the claim. -/
theorem sortEntries_characterization (i : IndexFile) (name : String)
    (vs : List ChartVersion) (hlk : mapLookup i.entries name = some vs)
    (hlen : vs.length ≤ 12) :
    mapLookup i.SortEntries.entries name = some (sortDescending vs)
    ∧ (sortDescending vs).Pairwise sortedGE
    ∧ (∀ w : SemVer, (sortDescending vs).filter (eqVer w) = vs.filter (eqVer w))
    ∧ (sortDescending vs).filter (fun e => !cvParses e)
        = (vs.filter (fun e => !cvParses e)).reverse
    ∧ (sortDescending vs).Perm vs := by
  obtain ⟨h1, h2, h3, h4⟩ := sortDescending_spec vs
  refine ⟨?_, h1, h2, h3, h4⟩
  unfold IndexFile.SortEntries
  rw [mapLookup_map_snd sortDescending i.entries name, hlk]
  rfl

/-- C3 counterexample: two entries with distinct unparseable version
strings swap places under the sort, so SortEntries does not preserve
the relative order of entries without parseable versions. -/
theorem sort_stability_counterexample :
    sortDescending [mkCV "c" "bogusA", mkCV "c" "bogusB"]
      = [mkCV "c" "bogusB", mkCV "c" "bogusA"]
    ∧ (mkCV "c" "bogusA").Version ≠ (mkCV "c" "bogusB").Version := by
  exact ⟨by rfl, by decide⟩

/-- C3 witness: the characterization evaluated at the concrete index
c3Index, instantiating the class filter at version 1.0.0. -/
theorem sortEntries_characterization_witness :
    mapLookup c3Index.SortEntries.entries "app" = some (sortDescending c3List)
    ∧ (sortDescending c3List).Pairwise sortedGE
    ∧ (sortDescending c3List).filter (eqVer ⟨1, 0, 0, "", ""⟩)
        = c3List.filter (eqVer ⟨1, 0, 0, "", ""⟩)
    ∧ (sortDescending c3List).filter (fun e => !cvParses e)
        = (c3List.filter (fun e => !cvParses e)).reverse
    ∧ (sortDescending c3List).Perm c3List := by
  have h := sortEntries_characterization c3Index "app" c3List (by rfl) (by decide)
  exact ⟨h.1, h.2.1, h.2.2.1 ⟨1, 0, 0, "", ""⟩, h.2.2.2.1, h.2.2.2.2⟩

end HelmRepo
